import Mathlib

/-!
# Huffman text compressor (`zipper.cpp`): model and verification

Shallow embedding of `src/DSA Projects/zipper.cpp`.

* A C++ `string` is a `List Char`; the bytes of the binary file are natural numbers below 256.
* A `Node*` is a `NodePtr`: either `null` or a node with its four fields.
* `int` values are integers; an addition that leaves the 32-bit range is undefined behaviour
  in C++ and is a `Fault` here.
* `std::priority_queue<Node*, vector<Node*>, compare>` is the container adaptor of the C++
  standard: a vector kept as a heap by `std::push_heap` and `std::pop_heap`.  The standard
  fixes what those two algorithms guarantee, not how they break ties, so they are a parameter
  (`HeapAlgo`) that carries exactly the standard's guarantees.
-/

namespace Zipper

/-! ## Data model -/

/-- A `Node*` of the program: the null pointer, or a pointer to a `Node` with fields
`ch`, `freq`, `left`, `right` (lines 11-16). -/
inductive NodePtr where
  | null : NodePtr
  | node (ch : Char) (freq : Int) (left right : NodePtr) : NodePtr
  deriving DecidableEq

/-- Ways in which a run of the program leaves defined behaviour. -/
inductive Fault where
  /-- `top()` of an empty `priority_queue` (front of an empty vector). -/
  | emptyTop
  /-- `pop()` of an empty `priority_queue`. -/
  | emptyPop
  /-- A member access through a null `Node*`. -/
  | nullDeref
  /-- Signed `int` arithmetic outside the 32-bit range. -/
  | intOverflow
  /-- The `bitset<8>(string)` constructor met a character other than 0 and 1
  (`std::invalid_argument`). -/
  | invalidBit
  /-- The header byte was used although the file had no byte to read. -/
  | noHeaderByte
  /-- The iteration bound of the model of a `while` loop was reached. -/
  | outOfFuel
  deriving DecidableEq

/-- Largest value of a 32-bit `int`. -/
def INT_MAX : Int := 2147483647

/-- Smallest value of a 32-bit `int`. -/
def INT_MIN : Int := -2147483648

/-- Signed `int` addition: defined only when the sum is representable. -/
def addInt (a b : Int) : Except Fault Int :=
  if INT_MIN ≤ a + b ∧ a + b ≤ INT_MAX then .ok (a + b) else .error .intOverflow

/-- The field `freq` behind a pointer.  The heap only ever stores pointers obtained from
`new Node`, so the value chosen for `null` is never used by a run. -/
def NodePtr.freqOf : NodePtr → Int
  | .null => 0
  | .node _ f _ _ => f

/-- The test `!p` on a pointer. -/
def NodePtr.isNull : NodePtr → Bool
  | .null => true
  | .node _ _ _ _ => false

/-- The comparator of the heap (lines 19-23): `l->freq > r->freq`. -/
def compare (l r : NodePtr) : Bool :=
  decide (l.freqOf > r.freqOf)

/-! ## The priority queue -/

/-- The heap property `std::is_heap(first, last, compare())` for the vector `v`: no element
compares below its parent, the element at index `(i - 1) / 2`. -/
def IsHeap (v : List NodePtr) : Prop :=
  ∀ i, 0 < i → i < v.length →
    compare (v.getD ((i - 1) / 2) .null) (v.getD i .null) = false

instance isHeap_decidable (v : List NodePtr) : Decidable (IsHeap v) :=
  decidable_of_iff
    (∀ i, i < v.length → 0 < i →
      compare (v.getD ((i - 1) / 2) .null) (v.getD i .null) = false)
    ⟨fun h i hi hlt => h i hlt hi, fun h i hlt hi => h i hi hlt⟩

/-- The two heap algorithms of the standard library used by `std::priority_queue`, with the
guarantees the C++ standard gives for them and nothing more: `push_heap` rearranges a heap
followed by one new element into a heap; `pop_heap` moves the front element of a heap to the
back and rearranges the others into a heap in front of it. -/
structure HeapAlgo where
  /-- The algorithm `std::push_heap(v.begin(), v.end(), compare())`. -/
  push_heap : List NodePtr → List NodePtr
  /-- The algorithm `std::pop_heap(v.begin(), v.end(), compare())`. -/
  pop_heap : List NodePtr → List NodePtr
  push_heap_spec : ∀ v x, IsHeap v →
    (push_heap (v ++ [x])).Perm (v ++ [x]) ∧ IsHeap (push_heap (v ++ [x]))
  pop_heap_spec : ∀ x v, IsHeap (x :: v) →
    ∃ w, pop_heap (x :: v) = w ++ [x] ∧ w.Perm v ∧ IsHeap w

/-- The member `priority_queue::push`: `c.push_back(x); push_heap(c.begin(), c.end(), comp)`. -/
def pqPush (hp : HeapAlgo) (c : List NodePtr) (x : NodePtr) : List NodePtr :=
  hp.push_heap (c ++ [x])

/-- The member `priority_queue::top`: `c.front()`, undefined on an empty container. -/
def pqTop (c : List NodePtr) : Except Fault NodePtr :=
  match c with
  | [] => .error .emptyTop
  | x :: _ => .ok x

/-- The member `priority_queue::pop`: `pop_heap(c.begin(), c.end(), comp); c.pop_back()`,
undefined on an empty container. -/
def pqPop (hp : HeapAlgo) (c : List NodePtr) : Except Fault (List NodePtr) :=
  match c with
  | [] => .error .emptyPop
  | _ :: _ => .ok (hp.pop_heap c).dropLast

/-! ## `buildHuffmanTree` (lines 39-59) -/

/-- Lines 52-54: `new Node(0, left->freq + right->freq)` with both children set. -/
def newInternal (left right : NodePtr) : Except Fault NodePtr :=
  match left, right with
  | .node _ lf _ _, .node _ rf _ _ => do
    let f ← addInt lf rf
    .ok (.node (Char.ofNat 0) f left right)
  | _, _ => .error .nullDeref

/-- The `while (minHeap.size() > 1)` loop of lines 48-56.  `fuel` bounds the number of
iterations of the model. -/
def mergeLoop (hp : HeapAlgo) : Nat → List NodePtr → Except Fault (List NodePtr)
  | fuel, minHeap =>
    if minHeap.length > 1 then
      match fuel with
      | 0 => .error .outOfFuel
      | fuel + 1 => do
        let left ← pqTop minHeap
        let h1 ← pqPop hp minHeap
        let right ← pqTop h1
        let h2 ← pqPop hp h1
        let internalNode ← newInternal left right
        mergeLoop hp fuel (pqPush hp h2 internalNode)
    else .ok minHeap

/-- The `for (auto pair : freqMap)` loop of lines 43-45: one leaf per entry, pushed in
iteration order. -/
def pushLeaves (hp : HeapAlgo) (freqMap : List (Char × Int)) : List NodePtr :=
  freqMap.foldl (fun minHeap pair => pqPush hp minHeap (.node pair.1 pair.2 .null .null)) []

/-- The function `buildHuffmanTree`.  The `map<char,int>` is the list of its entries in
iteration order.  The loop is given as many iterations as the heap has elements. -/
def buildHuffmanTree (hp : HeapAlgo) (freqMap : List (Char × Int)) : Except Fault NodePtr := do
  let minHeap := pushLeaves hp freqMap
  let final ← mergeLoop hp minHeap.length minHeap
  pqTop final

/-! ## `generateCodes`, `encode`, `decode` (lines 26-36, 62-84) -/

/-- A `map<char,string>`: the string stored for each key that is present. -/
abbrev CodeMap := Char → Option (List Char)

/-- The empty `map<char,string>`. -/
def emptyCodes : CodeMap := fun _ => none

/-- The assignment `huffmanCode[k] = code`. -/
def assignCode (huffmanCode : CodeMap) (k : Char) (code : List Char) : CodeMap :=
  fun c => if c = k then some code else huffmanCode c

/-- The function `generateCodes`, returning the map it updates through the reference. -/
def generateCodes : NodePtr → List Char → CodeMap → CodeMap
  | .null, _, huffmanCode => huffmanCode
  | .node ch _ left right, code, huffmanCode =>
    let m0 := if left.isNull && right.isNull then assignCode huffmanCode ch code
              else huffmanCode
    let m1 := generateCodes left (code ++ ['0']) m0
    generateCodes right (code ++ ['1']) m1

/-- The expression `huffmanCode[ch]` read as a value: the stored string, or the empty string
that `operator[]` inserts for a missing key. -/
def lookupCode (huffmanCode : CodeMap) (ch : Char) : List Char :=
  (huffmanCode ch).getD []

/-- The function `encode`. -/
def encode (text : List Char) (huffmanCode : CodeMap) : List Char :=
  text.foldl (fun encodedString ch => encodedString ++ lookupCode huffmanCode ch) []

/-- The loop of `decode` (lines 74-82) from a given state: current node, output so far and
remaining input.  It returns the final current node together with the output. -/
def decodeLoop (root : NodePtr) :
    NodePtr → List Char → List Char → Except Fault (NodePtr × List Char)
  | currentNode, decodedString, [] => .ok (currentNode, decodedString)
  | currentNode, decodedString, bit :: rest =>
    match currentNode with
    | .null => .error .nullDeref
    | .node _ _ left right =>
      match (if bit = '0' then left else right) with
      | .null => .error .nullDeref
      | .node ch f l r =>
        if l.isNull && r.isNull then decodeLoop root root (decodedString ++ [ch]) rest
        else decodeLoop root (.node ch f l r) decodedString rest

/-- The function `decode`: the output string of the loop started at the root. -/
def decode (root : NodePtr) (encodedStr : List Char) : Except Fault (List Char) :=
  (decodeLoop root root [] encodedStr).map Prod.snd

/-! ## The binary file: `saveBinaryFile` and `readBinaryFile` (lines 87-116) -/

/-- The string of a `bitset<8>` holding the low eight bits of `v`: eight characters, the
most significant bit first (`to_string`, and also what `operator<<` writes to a stream). -/
def bitsetToString (v : Nat) : List Char :=
  [7, 6, 5, 4, 3, 2, 1, 0].map (fun i => if (v / 2 ^ i) % 2 = 1 then '1' else '0')

/-- The value of `bitset<8>(s)` for a string `s` of at most eight characters: the last
character is bit 0; any character other than 0 and 1 throws. -/
def bitsetOfString (s : List Char) : Except Fault Nat :=
  s.foldlM (fun acc c =>
    if c = '0' then Except.ok (2 * acc)
    else if c = '1' then Except.ok (2 * acc + 1)
    else Except.error Fault.invalidBit) 0

/-- The loop of lines 93-96: one byte per block `paddedText.substr(i, 8)`. -/
def packLoop : List Char → Except Fault (List Nat)
  | [] => .ok []
  | c0 :: c1 :: c2 :: c3 :: c4 :: c5 :: c6 :: c7 :: rest => do
    let byte ← bitsetOfString [c0, c1, c2, c3, c4, c5, c6, c7]
    let more ← packLoop rest
    .ok (byte % 256 :: more)
  | block => do
    let byte ← bitsetOfString block
    .ok [byte % 256]

/-- The number `extraBits` of line 89. -/
def extraBitsOf (encodedText : List Char) : Nat :=
  8 - encodedText.length % 8

/-- The bytes that line 92, `outFile << bitset<8>(extraBits)`, puts into the file: the stream
insertion of a `bitset` writes its eight characters. -/
def headerBytes (extraBits : Nat) : List Nat :=
  (bitsetToString extraBits).map Char.toNat

/-- The function `saveBinaryFile`, returning the bytes of the file it writes. -/
def saveBinaryFile (encodedText : List Char) : Except Fault (List Nat) := do
  let extraBits := extraBitsOf encodedText
  let paddedText := encodedText ++ List.replicate extraBits '0'
  let payload ← packLoop paddedText
  .ok (headerBytes extraBits ++ payload)

/-- Lines 103-105 of `readBinaryFile`: the value `extraBits` taken from the first byte of the
file, and the bytes left in the stream. -/
def readHeader (file : List Nat) : Except Fault (Nat × List Nat) :=
  match file with
  | [] => .error .noHeaderByte
  | extraBitsChar :: bytes => .ok (extraBitsChar % 256, bytes)

/-- The loop of lines 107-111 of `readBinaryFile`: every byte left in the stream is expanded
to the eight characters of its `bitset<8>`. -/
def expandBytes (bytes : List Nat) : List Char :=
  bytes.foldl (fun encodedBinary byte => encodedBinary ++ bitsetToString byte) []

/-- The text that `readBinaryFile` hands to `decode` (lines 102-113) for a file with the
given bytes: the first byte is taken as `extraBits`, every further byte is expanded to eight
characters, and `substr(0, size - extraBits)` is computed in 64-bit unsigned arithmetic. -/
def readBits (file : List Nat) : Except Fault (List Char) := do
  let (extraBits, bytes) ← readHeader file
  let encodedBinary := expandBytes bytes
  .ok (encodedBinary.take ((encodedBinary.length + 2 ^ 64 - extraBits) % 2 ^ 64))

/-- The function `readBinaryFile` on the bytes of the file. -/
def readBinaryFile (file : List Nat) (root : NodePtr) : Except Fault (List Char) := do
  let encodedBinary ← readBits file
  decode root encodedBinary

/-! ## `main` (lines 130-150) -/

/-- One step `freqMap[ch]++` of the counting loop on the entries of the map, kept in key
order.  The keys are compared by character code; where `char` is signed, `std::map` iterates
the bytes from 128 up before the others, which changes the order of the entries only, not
the keys or the counts. -/
def bump (ch : Char) : List (Char × Int) → Except Fault (List (Char × Int))
  | [] => .ok [(ch, 1)]
  | (k, n) :: rest =>
    if ch = k then do
      let n1 ← addInt n 1
      .ok ((k, n1) :: rest)
    else if ch < k then .ok ((ch, 1) :: (k, n) :: rest)
    else do
      let rest1 ← bump ch rest
      .ok ((k, n) :: rest1)

/-- Step 1 of `main` (lines 131-134): the frequency map of the input text. -/
def countFreq (inputText : List Char) : Except Fault (List (Char × Int)) :=
  inputText.foldlM (fun freqMap ch => bump ch freqMap) []

/-- Steps 1 to 4 of `main`: the tree and the bytes written to `compressed.bin`. -/
def compress (hp : HeapAlgo) (inputText : List Char) : Except Fault (NodePtr × List Nat) := do
  let freqMap ← countFreq inputText
  let root ← buildHuffmanTree hp freqMap
  let huffmanCode := generateCodes root [] emptyCodes
  let encodedText := encode inputText huffmanCode
  let file ← saveBinaryFile encodedText
  .ok (root, file)

/-- Steps 1 to 5 of `main`: the text written to `output.txt`. -/
def mainRun (hp : HeapAlgo) (inputText : List Char) : Except Fault (List Char) := do
  let (root, file) ← compress hp inputText
  readBinaryFile file root

/-- The bit string round trip without the file: `decode(root, encode(text, codes))` for the
tree and the codes of the text. -/
def codecRun (hp : HeapAlgo) (inputText : List Char) : Except Fault (List Char) := do
  let freqMap ← countFreq inputText
  let root ← buildHuffmanTree hp freqMap
  decode root (encode inputText (generateCodes root [] emptyCodes))

/-! ## A conforming heap, for running the model -/

/-- The order of the heap on pointers: ascending `freq`. -/
def freqLe (a b : NodePtr) : Prop := a.freqOf ≤ b.freqOf

instance freqLe_decidable : DecidableRel freqLe :=
  fun a b => inferInstanceAs (Decidable (a.freqOf ≤ b.freqOf))

instance freqLe_total : IsTotal NodePtr freqLe := ⟨fun a b => Int.le_total a.freqOf b.freqOf⟩

instance freqLe_trans : IsTrans NodePtr freqLe := ⟨fun _ _ _ h1 h2 => Int.le_trans h1 h2⟩

/-- A conforming pair of heap algorithms: both keep the range sorted by ascending `freq`,
which is one of the arrangements `std::is_heap` accepts. -/
def sortingHeap : HeapAlgo where
  push_heap v := v.insertionSort freqLe
  pop_heap v :=
    match v with
    | [] => []
    | x :: w => w.insertionSort freqLe ++ [x]
  push_heap_spec v x _ := by
    refine ⟨List.perm_insertionSort freqLe _, ?_⟩
    intro i hi hlt
    have hs := List.sorted_insertionSort freqLe (v ++ [x])
    have hlt : i < ((v ++ [x]).insertionSort freqLe).length := hlt
    have hp : (i - 1) / 2 < i := by omega
    have hlt2 : (i - 1) / 2 < ((v ++ [x]).insertionSort freqLe).length := by omega
    have hr := (List.pairwise_iff_getElem.mp hs) ((i - 1) / 2) i hlt2 hlt hp
    rw [List.getD_eq_getElem _ _ hlt2, List.getD_eq_getElem _ _ hlt]
    simpa [compare, freqLe] using hr
  pop_heap_spec x v _ := by
    refine ⟨v.insertionSort freqLe, rfl, List.perm_insertionSort freqLe v, ?_⟩
    intro i hi hlt
    have hs := List.sorted_insertionSort freqLe v
    have hp : (i - 1) / 2 < i := by omega
    have hlt2 : (i - 1) / 2 < (v.insertionSort freqLe).length := by omega
    have hr := (List.pairwise_iff_getElem.mp hs) ((i - 1) / 2) i hlt2 hlt hp
    rw [List.getD_eq_getElem _ _ hlt2, List.getD_eq_getElem _ _ hlt]
    simpa [compare, freqLe] using hr

/-! ## Notions used to state the properties -/

/-- The leaf test of lines 30 and 78 on a pointer: non-null with both children null. -/
def NodePtr.isLeaf : NodePtr → Bool
  | .null => false
  | .node _ _ l r => l.isNull && r.isNull

/-- A well-formed tree: non-null, and every node has either no child or both children. -/
def NodePtr.isFull : NodePtr → Bool
  | .null => false
  | .node _ _ l r => (l.isNull && r.isNull) || (l.isFull && r.isFull)

/-- The symbols of the leaves, from left to right. -/
def NodePtr.leaves : NodePtr → List Char
  | .null => []
  | .node ch _ l r => if l.isNull && r.isNull then [ch] else l.leaves ++ r.leaves

/-- A string of binary digits. -/
def IsBits (s : List Char) : Prop := ∀ c ∈ s, c = '0' ∨ c = '1'

instance isBits_decidable (s : List Char) : Decidable (IsBits s) :=
  inferInstanceAs (Decidable (∀ c ∈ s, c = '0' ∨ c = '1'))

/-- The leaf that line 44 creates for an entry of the frequency map. -/
def leafOf (pair : Char × Int) : NodePtr := .node pair.1 pair.2 .null .null

/-- The runs of the merge loop whatever the heap does among equal frequencies: from a
collection `l` of trees, take out one of least `freq`, then one of least `freq` among the
rest, put back their parent, and go on until one tree is left. -/
inductive HuffRun : List NodePtr → NodePtr → Prop
  | done (t : NodePtr) : HuffRun [t] t
  | merge (l : List NodePtr) (a b : NodePtr) (rest : List NodePtr) (n r : NodePtr) :
      l.Perm (a :: b :: rest) →
      (∀ y ∈ b :: rest, a.freqOf ≤ y.freqOf) →
      (∀ y ∈ rest, b.freqOf ≤ y.freqOf) →
      newInternal a b = .ok n →
      HuffRun (n :: rest) r →
      HuffRun l r

/-- The trees of a heap are real nodes with non-negative `freq`, and the sum of all `freq`
fields is an `int`. -/
def InRange (v : List NodePtr) : Prop :=
  (∀ t ∈ v, t.isNull = false ∧ 0 ≤ t.freqOf) ∧ (v.map NodePtr.freqOf).sum ≤ INT_MAX

instance inRange_decidable (v : List NodePtr) : Decidable (InRange v) :=
  inferInstanceAs (Decidable
    ((∀ t ∈ v, t.isNull = false ∧ 0 ≤ t.freqOf) ∧ (v.map NodePtr.freqOf).sum ≤ INT_MAX))

/-- A frequency map whose counts the program can add up: every count is non-negative and
their total is an `int`. -/
def CountsInRange (freqMap : List (Char × Int)) : Prop :=
  (∀ pair ∈ freqMap, 0 ≤ pair.2) ∧ (freqMap.map Prod.snd).sum ≤ INT_MAX

instance countsInRange_decidable (freqMap : List (Char × Int)) :
    Decidable (CountsInRange freqMap) :=
  inferInstanceAs (Decidable
    ((∀ pair ∈ freqMap, 0 ≤ pair.2) ∧ (freqMap.map Prod.snd).sum ≤ INT_MAX))

/-- The code that `generateCodes` leaves in the map for the symbol `c` after visiting the tree,
relative to the code of the root: the last assignment made for `c` wins, so the right subtree
is looked at first, then the left one, then the node itself. -/
def NodePtr.codeOf : NodePtr → Char → Option (List Char)
  | .null, _ => none
  | .node ch _ l r, c =>
    match r.codeOf c with
    | some p => some ('1' :: p)
    | none =>
      match l.codeOf c with
      | some p => some ('0' :: p)
      | none => if (l.isNull && r.isNull) = true ∧ c = ch then some [] else none

/-- The tree of the text "aabbbcc" (counts a 2, b 3, c 2) when the heap hands out a before c:
b is the left child of the root, a and c are below its right child. -/
def sampleTree : NodePtr :=
  .node (Char.ofNat 0) 7 (.node 'b' 3 .null .null)
    (.node (Char.ofNat 0) 4 (.node 'a' 2 .null .null) (.node 'c' 2 .null .null))

/-! ## Notions used for the optimality of the tree -/

/-- The count that a frequency map holds for a symbol, and 0 for a symbol it does not hold. -/
def freqIn : List (Char × Int) → Char → Int
  | [], _ => 0
  | (k, f) :: rest, c => if c = k then f else freqIn rest c

/-- The weighted path length of a tree for a frequency map, in the terms of the program: the
sum over the entries of the map of the count times the length of the code that
`generateCodes` gives to the symbol. -/
def weightedPathLength (freqMap : List (Char × Int)) (t : NodePtr) : Int :=
  (freqMap.map (fun pair =>
    pair.2 * ((lookupCode (generateCodes t [] emptyCodes) pair.1).length : Int))).sum

/-- The sum over the leaves of a tree of weight times depth, the root being at depth `k`. -/
def wplAt (w : Char → Int) : NodePtr → Nat → Int
  | .null, _ => 0
  | .node ch _ l r, k =>
    if l.isNull && r.isNull then w ch * (k : Int) else wplAt w l (k + 1) + wplAt w r (k + 1)

/-- The leaves of a tree as pairs of weight and depth, the root being at depth `k`. -/
def profile (w : Char → Int) : NodePtr → Nat → Multiset (Int × Nat)
  | .null, _ => 0
  | .node ch _ l r, k =>
    if l.isNull && r.isNull then {(w ch, k)} else profile w l (k + 1) + profile w r (k + 1)

/-- The Kraft sum of a collection of leaf depths: the sum of `2 ^ (-d)`. -/
def kraft (ds : Multiset ℕ) : ℚ := (ds.map (fun d => ((1 : ℚ) / 2) ^ d)).sum

/-- The weighted path length of a collection of (weight, depth) pairs. -/
def pcost (P : Multiset (ℤ × ℕ)) : ℤ := (P.map (fun p => p.1 * (p.2 : ℤ))).sum

/-- The sum of `2 ^ (D - d)` over a collection of depths. -/
def scaled (D : ℕ) (ds : Multiset ℕ) : ℕ := (ds.map (fun d => 2 ^ (D - d))).sum

/-- The total of the merged weights when the two least weights are merged again and again. -/
inductive HuffCost : Multiset ℤ → ℤ → Prop
  | single (w : ℤ) : HuffCost {w} 0
  | step (a b : ℤ) (s : Multiset ℤ) (C : ℤ) :
      (∀ x ∈ b ::ₘ s, a ≤ x) → (∀ x ∈ s, b ≤ x) →
      HuffCost ((a + b) ::ₘ s) C → HuffCost (a ::ₘ b ::ₘ s) (C + (a + b))

/-! ## Notions used for the shape of the tree -/

/-- The leaves of a tree with both fields they carry, symbol and `freq`, from left to
right. -/
def NodePtr.leafEntries : NodePtr → List (Char × Int)
  | .null => []
  | .node ch f l r => if l.isNull && r.isNull then [(ch, f)] else l.leafEntries ++ r.leafEntries

/-- The number of nodes of a tree that are not leaves. -/
def NodePtr.internalCount : NodePtr → Nat
  | .null => 0
  | .node _ _ l r => if l.isNull && r.isNull then 0 else 1 + l.internalCount + r.internalCount

/-- The node reached from `t` by following a code: 0 goes to the left child, any other
character to the right child, as in `decode`; `null` once a missing child is followed. -/
def NodePtr.follow : NodePtr → List Char → NodePtr
  | t, [] => t
  | .null, _ :: _ => .null
  | .node _ _ l r, b :: bs => (if b = '0' then l else r).follow bs

/-- The body of the `while` loop of lines 48-56: one merge. -/
def mergeBody (hp : HeapAlgo) (minHeap : List NodePtr) : Except Fault (List NodePtr) := do
  let left ← pqTop minHeap
  let h1 ← pqPop hp minHeap
  let right ← pqTop h1
  let h2 ← pqPop hp h1
  let internalNode ← newInternal left right
  .ok (pqPush hp h2 internalNode)

/-! ## Notions used for the counting loop -/

/-- The state of the frequency map after the counting loop has read the characters `pre`:
the keys are in strictly ascending order, they are the characters read, and every count is
the number of occurrences read. -/
def CountsOf (freqMap : List (Char × Int)) (pre : List Char) : Prop :=
  (freqMap.map Prod.fst).Pairwise (· < ·) ∧
    (∀ c, c ∈ freqMap.map Prod.fst ↔ c ∈ pre) ∧
    ∀ c, freqIn freqMap c = (pre.count c : Int)

/-- The other tree of the text "aabbbcc", when the heap hands out c before a. -/
def sampleTreeSwapped : NodePtr :=
  .node (Char.ofNat 0) 7 (.node 'b' 3 .null .null)
    (.node (Char.ofNat 0) 4 (.node 'c' 2 .null .null) (.node 'a' 2 .null .null))

/-- The value of a binary digit: 1 for the character 1, 0 otherwise. -/
def bitVal (c : Char) : Nat := if c = '1' then 1 else 0

/-- The value of the `i`-th block of eight characters of `s` read as a binary number with
the most significant bit first. -/
def msbByte (s : List Char) (i : Nat) : Nat :=
  128 * bitVal (s.getD (8 * i) '0') + 64 * bitVal (s.getD (8 * i + 1) '0') +
    32 * bitVal (s.getD (8 * i + 2) '0') + 16 * bitVal (s.getD (8 * i + 3) '0') +
    8 * bitVal (s.getD (8 * i + 4) '0') + 4 * bitVal (s.getD (8 * i + 5) '0') +
    2 * bitVal (s.getD (8 * i + 6) '0') + bitVal (s.getD (8 * i + 7) '0')

/-! # Properties -/

/-! ## Basic facts about the priority queue -/

theorem isHeap_nil : IsHeap [] := by
  intro i _ hlt
  simp at hlt

theorem pushLeaves_single (hp : HeapAlgo) (c : Char) (f : Int) :
    pushLeaves hp [(c, f)] = [.node c f .null .null] := by
  have h := (hp.push_heap_spec [] (.node c f .null .null) isHeap_nil).1
  simpa [pushLeaves, pqPush] using h

theorem buildHuffmanTree_single (hp : HeapAlgo) (c : Char) (f : Int) :
    buildHuffmanTree hp [(c, f)] = .ok (.node c f .null .null) := by
  simp [buildHuffmanTree, pushLeaves_single, mergeLoop, pqTop]
  rfl

/-! ## The binary file -/

theorem foldlM_bits_ok (s : List Char) (hs : IsBits s) (acc : Nat) :
    ∃ v, s.foldlM (fun acc c =>
      if c = '0' then Except.ok (2 * acc)
      else if c = '1' then Except.ok (2 * acc + 1)
      else Except.error Fault.invalidBit) acc = Except.ok v := by
  induction s generalizing acc with
  | nil => exact ⟨acc, rfl⟩
  | cons c s ih =>
    have hs2 : IsBits s := fun x hx => hs x (List.mem_cons_of_mem _ hx)
    rcases hs c (List.mem_cons_self _ _) with h | h
    · subst h
      obtain ⟨v, hv⟩ := ih hs2 (2 * acc)
      exact ⟨v, by simpa [List.foldlM] using hv⟩
    · subst h
      obtain ⟨v, hv⟩ := ih hs2 (2 * acc + 1)
      refine ⟨v, ?_⟩
      simp only [List.foldlM]
      simpa using hv

theorem bitsetOfString_ok (s : List Char) (hs : IsBits s) :
    ∃ v, bitsetOfString s = .ok v :=
  foldlM_bits_ok s hs 0

theorem packLoop_length (s : List Char) (hs : IsBits s) :
    ∃ payload, packLoop s = .ok payload ∧ payload.length = (s.length + 7) / 8 := by
  induction s using packLoop.induct with
  | case1 => exact ⟨[], rfl, rfl⟩
  | case2 c0 c1 c2 c3 c4 c5 c6 c7 rest ih =>
    have hr : IsBits rest := fun x hx => hs x (by simp [hx])
    have hb : IsBits [c0, c1, c2, c3, c4, c5, c6, c7] := fun x hx => hs x (by
      simp only [List.mem_cons, List.mem_nil_iff, or_false] at hx
      simp only [List.mem_cons]
      tauto)
    obtain ⟨v, hv⟩ := bitsetOfString_ok _ hb
    obtain ⟨more, hm, hl⟩ := ih hr
    refine ⟨v % 256 :: more, ?_, ?_⟩
    · simp [packLoop, hv, hm]
      rfl
    · simp only [List.length_cons, hl]
      omega
  | case3 block hne h8 =>
    obtain ⟨v, hv⟩ := bitsetOfString_ok _ hs
    refine ⟨[v % 256], ?_, ?_⟩
    · rw [packLoop]
      · simp [hv]; rfl
      · exact hne
      · exact h8
    · have hlen : 1 ≤ block.length ∧ block.length ≤ 7 := by
        rcases block with _ | ⟨a0, _ | ⟨a1, _ | ⟨a2, _ | ⟨a3, _ | ⟨a4, _ | ⟨a5, _ | ⟨a6, _ | ⟨a7, r⟩⟩⟩⟩⟩⟩⟩⟩
        all_goals first
          | exact absurd rfl hne
          | exact (h8 _ _ _ _ _ _ _ _ _ rfl).elim
          | simp
      simp only [List.length_singleton]
      omega

theorem saveBinaryFile_payload (encodedText : List Char) (hs : IsBits encodedText) :
    ∃ payload, saveBinaryFile encodedText = .ok (headerBytes (extraBitsOf encodedText) ++ payload) ∧
      payload.length = encodedText.length / 8 + 1 := by
  have hp : IsBits (encodedText ++ List.replicate (extraBitsOf encodedText) '0') := by
    intro c hc
    rcases List.mem_append.mp hc with h | h
    · exact hs c h
    · exact Or.inl (List.eq_of_mem_replicate h)
  obtain ⟨payload, hpk, hl⟩ := packLoop_length _ hp
  refine ⟨payload, ?_, ?_⟩
  · simp [saveBinaryFile, hpk]
    rfl
  · rw [hl]
    simp only [List.length_append, List.length_replicate, extraBitsOf]
    omega

/-! ## The decoding loop -/

theorem decodeLoop_append (root : NodePtr) (b1 b2 : List Char) (cur : NodePtr)
    (acc : List Char) :
    decodeLoop root cur acc (b1 ++ b2) =
      (decodeLoop root cur acc b1 >>= fun p => decodeLoop root p.1 p.2 b2) := by
  induction b1 generalizing cur acc with
  | nil => rfl
  | cons b bs ih =>
    cases cur with
    | null => rfl
    | node ch f l r =>
      simp only [List.cons_append, decodeLoop]
      split
      · rfl
      · split <;> exact ih _ _

theorem decodeLoop_acc (root : NodePtr) (bits : List Char) (cur : NodePtr)
    (acc : List Char) :
    decodeLoop root cur acc bits =
      (decodeLoop root cur [] bits).map (fun p => (p.1, acc ++ p.2)) := by
  induction bits generalizing cur acc with
  | nil => simp [decodeLoop, Except.map]
  | cons b bs ih =>
    cases cur with
    | null => rfl
    | node ch f l r =>
      simp only [decodeLoop]
      split
      · rfl
      · split
        · rw [ih _ (acc ++ _), ih _ ([] ++ _)]
          cases decodeLoop root root [] bs with
          | error e => rfl
          | ok p => simp [Except.map]
        · exact ih _ _

theorem isFull_children {ch : Char} {f : Int} {l r : NodePtr}
    (hf : (NodePtr.node ch f l r).isFull = true)
    (hl : (NodePtr.node ch f l r).isLeaf = false) :
    l.isFull = true ∧ r.isFull = true := by
  simp only [NodePtr.isFull, NodePtr.isLeaf] at hf hl
  simp only [hl, Bool.false_or, Bool.and_eq_true] at hf
  exact hf

theorem isFull_ne_null {t : NodePtr} (h : t.isFull = true) : t ≠ .null := by
  rintro rfl
  simp [NodePtr.isFull] at h

/-- On a well-formed tree that is not a single leaf the loop of `decode` never faults, and it
always stops on an inner node of the tree. -/
theorem decodeLoop_total (root : NodePtr) (hf : root.isFull = true)
    (hl : root.isLeaf = false) (bits : List Char) (cur : NodePtr) (acc : List Char)
    (hcf : cur.isFull = true) (hcl : cur.isLeaf = false) :
    ∃ cur1 out, decodeLoop root cur acc bits = .ok (cur1, out) ∧
      cur1.isFull = true ∧ cur1.isLeaf = false := by
  induction bits generalizing cur acc with
  | nil => exact ⟨cur, acc, rfl, hcf, hcl⟩
  | cons b bs ih =>
    cases cur with
    | null => simp [NodePtr.isFull] at hcf
    | node ch f l r =>
      obtain ⟨hlf, hrf⟩ := isFull_children hcf hcl
      simp only [decodeLoop]
      have hnext : (if b = '0' then l else r).isFull = true := by
        split <;> assumption
      generalize (if b = '0' then l else r) = next at hnext
      cases next with
      | null => simp [NodePtr.isFull] at hnext
      | node ch2 f2 l2 r2 =>
        simp only
        by_cases hleaf : (l2.isNull && r2.isNull) = true
        · rw [if_pos hleaf]
          exact ih root _ hf hl
        · rw [if_neg hleaf]
          refine ih _ _ hnext ?_
          simpa [NodePtr.isLeaf] using hleaf

/-- Every run of the loop of `decode` that returns splits its input into a part that ends on
a leaf boundary and produces the whole output, and a rest that produces nothing. -/
theorem decodeLoop_split (root : NodePtr) (bits : List Char) :
    ∀ cur out, decodeLoop root root [] bits = .ok (cur, out) →
      ∃ pre tail, bits = pre ++ tail ∧
        decodeLoop root root [] pre = .ok (root, out) ∧
        decodeLoop root root [] tail = .ok (cur, []) := by
  induction bits using List.reverseRecOn with
  | nil =>
    intro cur out h
    simp only [decodeLoop, Except.ok.injEq, Prod.mk.injEq] at h
    obtain ⟨rfl, rfl⟩ := h
    exact ⟨[], [], rfl, rfl, rfl⟩
  | append_singleton bs b ih =>
    intro cur out h
    rw [decodeLoop_append] at h
    cases hbs : decodeLoop root root [] bs with
    | error e => rw [hbs] at h; cases h
    | ok p =>
      obtain ⟨c1, o1⟩ := p
      rw [hbs] at h
      obtain ⟨pre1, tail1, hsplit, hpre, htail⟩ := ih c1 o1 hbs
      change decodeLoop root c1 o1 [b] = .ok (cur, out) at h
      cases c1 with
      | null => cases h
      | node ch f l r =>
        simp only [decodeLoop] at h
        generalize hn : (if b = '0' then l else r) = next at h
        cases next with
        | null => cases h
        | node ch2 f2 l2 r2 =>
          simp only at h
          by_cases hleaf : (l2.isNull && r2.isNull) = true
          · rw [if_pos hleaf] at h
            simp only [Except.ok.injEq, Prod.mk.injEq] at h
            obtain ⟨rfl, rfl⟩ := h
            refine ⟨bs ++ [b], [], by simp, ?_, rfl⟩
            rw [decodeLoop_append, hbs]
            change decodeLoop root (.node ch f l r) o1 [b] = _
            simp only [decodeLoop, hn, hleaf, if_true]
          · rw [if_neg hleaf] at h
            simp only [Except.ok.injEq, Prod.mk.injEq] at h
            obtain ⟨rfl, rfl⟩ := h
            refine ⟨pre1, tail1 ++ [b], by simp [hsplit], hpre, ?_⟩
            rw [decodeLoop_append, htail]
            change decodeLoop root (.node ch f l r) [] [b] = _
            simp only [decodeLoop, hn, hleaf]
            rfl

/-! ## Runs of the merge loop -/

theorem compare_false_iff (a b : NodePtr) : compare a b = false ↔ a.freqOf ≤ b.freqOf := by
  simp [compare]

theorem isHeap_head_le_getD (x : NodePtr) (v : List NodePtr) (h : IsHeap (x :: v)) :
    ∀ i, i < (x :: v).length → x.freqOf ≤ ((x :: v).getD i .null).freqOf := by
  intro i
  induction i using Nat.strong_induction_on with
  | _ i ih =>
    intro hlt
    rcases Nat.eq_zero_or_pos i with h0 | hpos
    · subst h0
      simp
    · have hp : (i - 1) / 2 < i := by omega
      have h1 := ih _ hp (by omega)
      have h2 := (compare_false_iff _ _).mp (h i hpos hlt)
      exact le_trans h1 h2

theorem isHeap_head_le (x : NodePtr) (v : List NodePtr) (h : IsHeap (x :: v)) :
    ∀ y ∈ v, x.freqOf ≤ y.freqOf := by
  intro y hy
  obtain ⟨j, hj, rfl⟩ := List.mem_iff_getElem.mp hy
  have := isHeap_head_le_getD x v h (j + 1) (by simpa using hj)
  rw [List.getD_cons_succ, List.getD_eq_getElem _ _ hj] at this
  exact this

theorem pqPop_spec (hp : HeapAlgo) (x : NodePtr) (v : List NodePtr) (h : IsHeap (x :: v)) :
    ∃ w, pqPop hp (x :: v) = .ok w ∧ w.Perm v ∧ IsHeap w := by
  obtain ⟨w, hw, hperm, hheap⟩ := hp.pop_heap_spec x v h
  refine ⟨w, ?_, hperm, hheap⟩
  simp [pqPop, hw]

theorem pqPush_spec (hp : HeapAlgo) (c : List NodePtr) (x : NodePtr) (h : IsHeap c) :
    (pqPush hp c x).Perm (x :: c) ∧ IsHeap (pqPush hp c x) := by
  obtain ⟨h1, h2⟩ := hp.push_heap_spec c x h
  exact ⟨h1.trans (List.perm_append_singleton x c), h2⟩

theorem HuffRun.of_perm {l l2 : List NodePtr} {r : NodePtr} (h : HuffRun l r)
    (hp : l2.Perm l) : HuffRun l2 r := by
  cases h with
  | done t =>
    have := List.perm_singleton.mp hp
    subst this
    exact HuffRun.done _
  | merge _ a b rest n r h1 h2 h3 h4 h5 =>
    exact HuffRun.merge l2 a b rest n r (hp.trans h1) h2 h3 h4 h5

theorem InRange.perm {v w : List NodePtr} (h : InRange v) (hp : w.Perm v) : InRange w := by
  refine ⟨fun t ht => h.1 t (hp.subset ht), ?_⟩
  rw [(hp.map NodePtr.freqOf).sum_eq]
  exact h.2

theorem sum_nonneg_of_inRange {v : List NodePtr} (h : ∀ t ∈ v, 0 ≤ t.freqOf) :
    0 ≤ (v.map NodePtr.freqOf).sum := by
  apply List.sum_nonneg
  intro x hx
  obtain ⟨t, ht, rfl⟩ := List.mem_map.mp hx
  exact h t ht

theorem newInternal_ok (a b : NodePtr) (rest : List NodePtr) (h : InRange (a :: b :: rest)) :
    ∃ n, newInternal a b = .ok n ∧ n = .node (Char.ofNat 0) (a.freqOf + b.freqOf) a b ∧
      InRange (n :: rest) := by
  obtain ⟨hall, hsum⟩ := h
  have ha := hall a (by simp)
  have hb := hall b (by simp)
  have hrest : 0 ≤ (rest.map NodePtr.freqOf).sum :=
    sum_nonneg_of_inRange (fun t ht => (hall t (by simp [ht])).2)
  simp only [List.map_cons, List.sum_cons] at hsum
  cases a with
  | null => simp [NodePtr.isNull] at ha
  | node ca fa la ra =>
    cases b with
    | null => simp [NodePtr.isNull] at hb
    | node cb fb lb rb =>
      simp only [NodePtr.freqOf] at ha hb hsum ⊢
      have hadd : addInt fa fb = .ok (fa + fb) := by
        unfold addInt
        rw [if_pos]
        constructor
        · have : INT_MIN ≤ 0 := by decide
          linarith [ha.2, hb.2]
        · linarith
      refine ⟨_, ?_, rfl, ?_⟩
      · simp only [newInternal, hadd]
        rfl
      · refine ⟨?_, ?_⟩
        · intro t ht
          rcases List.mem_cons.mp ht with rfl | ht
          · exact ⟨rfl, by simp only [NodePtr.freqOf]; linarith [ha.2, hb.2]⟩
          · exact hall t (by simp [ht])
        · simp only [List.map_cons, List.sum_cons, NodePtr.freqOf]
          linarith

theorem mergeLoop_run (hp : HeapAlgo) (fuel : Nat) :
    ∀ v : List NodePtr, IsHeap v → v ≠ [] → v.length ≤ fuel + 1 → InRange v →
      ∃ r, mergeLoop hp fuel v = .ok [r] ∧ HuffRun v r := by
  induction fuel with
  | zero =>
    intro v _ hne hlen _
    match v, hne, hlen with
    | [t], _, _ => exact ⟨t, by simp [mergeLoop], HuffRun.done t⟩
  | succ fuel ih =>
    intro v hheap hne hlen hr
    match v, hne with
    | [t], _ => exact ⟨t, by simp [mergeLoop], HuffRun.done t⟩
    | x :: y0 :: v0, _ =>
      obtain ⟨w1, hpop1, hperm1, hheap1⟩ := pqPop_spec hp x (y0 :: v0) hheap
      have hw1 : w1 ≠ [] := by
        intro h
        subst h
        simpa using hperm1.length_eq
      match w1, hw1 with
      | y :: v2, _ =>
        obtain ⟨w2, hpop2, hperm2, hheap2⟩ := pqPop_spec hp y v2 hheap1
        have hperm : (x :: y0 :: v0).Perm (x :: y :: w2) :=
          (hperm1.symm.trans (hperm2.symm.cons y)).cons x
        have hr2 : InRange (x :: y :: w2) := hr.perm hperm.symm
        obtain ⟨n, hn, hneq, hr3⟩ := newInternal_ok x y w2 hr2
        obtain ⟨hperm3, hheap3⟩ := pqPush_spec hp w2 n hheap2
        have hlen3 : (pqPush hp w2 n).length ≤ fuel + 1 := by
          have h1 := hperm3.length_eq
          have h2 := hperm.length_eq
          simp only [List.length_cons] at h1 h2 hlen
          omega
        have hne3 : pqPush hp w2 n ≠ [] := by
          intro h
          rw [h] at hperm3
          simpa using hperm3.length_eq
        obtain ⟨r, hrun, hhr⟩ := ih _ hheap3 hne3 hlen3 (hr3.perm hperm3)
        refine ⟨r, ?_, ?_⟩
        · rw [mergeLoop]
          simp only [List.length_cons, gt_iff_lt, Nat.lt_add_left_iff_pos, Nat.zero_lt_succ,
            ↓reduceIte]
          simp only [pqTop, hpop1, hpop2, hn, bind, Except.bind]
          exact hrun
        · refine HuffRun.merge _ x y w2 n r hperm ?_ ?_ hn (hhr.of_perm hperm3.symm)
          · intro z hz
            have hz2 : z ∈ y :: v2 := (hperm2.cons y).subset hz
            exact isHeap_head_le x (y0 :: v0) hheap z (hperm1.subset hz2)
          · intro z hz
            exact isHeap_head_le y v2 hheap1 z (hperm2.subset hz)

theorem pushLeaves_aux (hp : HeapAlgo) (freqMap : List (Char × Int)) :
    ∀ acc : List NodePtr, IsHeap acc →
      (freqMap.foldl (fun minHeap pair => pqPush hp minHeap (.node pair.1 pair.2 .null .null))
          acc).Perm (acc ++ freqMap.map leafOf) ∧
        IsHeap (freqMap.foldl
          (fun minHeap pair => pqPush hp minHeap (.node pair.1 pair.2 .null .null)) acc) := by
  induction freqMap with
  | nil =>
    intro acc h
    simpa using h
  | cons p ps ih =>
    intro acc h
    obtain ⟨h1, h2⟩ := pqPush_spec hp acc (.node p.1 p.2 .null .null) h
    obtain ⟨h3, h4⟩ := ih _ h2
    refine ⟨?_, h4⟩
    simp only [List.foldl_cons, List.map_cons]
    refine h3.trans ?_
    refine (h1.append_right _).trans ?_
    simp only [List.cons_append]
    exact List.perm_middle.symm

theorem pushLeaves_spec (hp : HeapAlgo) (freqMap : List (Char × Int)) :
    (pushLeaves hp freqMap).Perm (freqMap.map leafOf) ∧ IsHeap (pushLeaves hp freqMap) := by
  simpa [pushLeaves] using pushLeaves_aux hp freqMap [] isHeap_nil

theorem inRange_leaves (freqMap : List (Char × Int)) (h : CountsInRange freqMap) :
    InRange (freqMap.map leafOf) := by
  refine ⟨?_, ?_⟩
  · intro t ht
    obtain ⟨p, hp, rfl⟩ := List.mem_map.mp ht
    exact ⟨rfl, h.1 p hp⟩
  · have : (freqMap.map leafOf).map NodePtr.freqOf = freqMap.map Prod.snd := by
      simp [List.map_map, Function.comp_def, leafOf, NodePtr.freqOf]
    rw [this]
    exact h.2

/-- With a non-empty frequency map whose counts are in range, `buildHuffmanTree` returns a
tree, and that tree is the result of a run of the merge loop on the leaves of the map. -/
theorem buildHuffmanTree_run (hp : HeapAlgo) (freqMap : List (Char × Int))
    (hne : freqMap ≠ []) (hr : CountsInRange freqMap) :
    ∃ root, buildHuffmanTree hp freqMap = .ok root ∧ HuffRun (freqMap.map leafOf) root := by
  obtain ⟨hperm, hheap⟩ := pushLeaves_spec hp freqMap
  have hne2 : pushLeaves hp freqMap ≠ [] := by
    intro h
    rw [h] at hperm
    have := hperm.length_eq
    simp only [List.length_nil, List.length_map] at this
    exact hne (List.length_eq_zero.mp this.symm)
  obtain ⟨r, hrun, hhr⟩ := mergeLoop_run hp (pushLeaves hp freqMap).length _ hheap hne2
    (Nat.le_succ _) ((inRange_leaves freqMap hr).perm hperm)
  refine ⟨r, ?_, hhr.of_perm hperm.symm⟩
  simp only [buildHuffmanTree, hrun, bind, Except.bind, pqTop]

/-! ## The code table -/

/-- What `generateCodes` does to the map: symbols with a code in the tree get the code of the
root followed by their path, all others keep their entry. -/
theorem generateCodes_eq (t : NodePtr) (code : List Char) (m : CodeMap) (c : Char) :
    generateCodes t code m c =
      match t.codeOf c with
      | some p => some (code ++ p)
      | none => m c := by
  induction t generalizing code m with
  | null => rfl
  | node ch f l r ihl ihr =>
    simp only [generateCodes, NodePtr.codeOf]
    rw [ihr, ihl]
    cases hr : r.codeOf c with
    | some p => simp
    | none =>
      cases hl : l.codeOf c with
      | some p => simp
      | none =>
        by_cases hleaf : (l.isNull && r.isNull) = true
        · by_cases hc : c = ch
          · simp [hleaf, hc, assignCode]
          · simp [hleaf, hc, assignCode]
        · simp [hleaf]

theorem generateCodes_root (t : NodePtr) (c : Char) :
    generateCodes t [] emptyCodes c = t.codeOf c := by
  rw [generateCodes_eq]
  cases t.codeOf c <;> simp [emptyCodes]

theorem codeOf_null_children {l r : NodePtr}
    (h : (l.isNull && r.isNull) = true) (c : Char) :
    l.codeOf c = none ∧ r.codeOf c = none := by
  simp only [Bool.and_eq_true] at h
  cases l with
  | node _ _ _ _ => simp [NodePtr.isNull] at h
  | null =>
    cases r with
    | node _ _ _ _ => simp [NodePtr.isNull] at h
    | null => exact ⟨rfl, rfl⟩

/-- Two symbols whose codes are comparable are the same symbol. -/
theorem codeOf_comparable (t : NodePtr) :
    ∀ (c1 c2 : Char) (x y : List Char), t.codeOf c1 = some x → t.codeOf c2 = some y →
      x <+: y → c1 = c2 := by
  induction t with
  | null =>
    intro c1 c2 x y h1
    simp [NodePtr.codeOf] at h1
  | node ch f l r ihl ihr =>
    intro c1 c2 x y h1 h2 hxy
    simp only [NodePtr.codeOf] at h1 h2
    cases hr1 : r.codeOf c1 with
    | some p1 =>
      rw [hr1] at h1
      simp only [Option.some.injEq] at h1
      subst h1
      cases hr2 : r.codeOf c2 with
      | some p2 =>
        rw [hr2] at h2
        simp only [Option.some.injEq] at h2
        subst h2
        exact ihr c1 c2 p1 p2 hr1 hr2 (by simpa using hxy)
      | none =>
        rw [hr2] at h2
        cases hl2 : l.codeOf c2 with
        | some q2 =>
          rw [hl2] at h2
          simp only [Option.some.injEq] at h2
          subst h2
          simp at hxy
        | none =>
          rw [hl2] at h2
          simp only at h2
          split at h2
          · simp only [Option.some.injEq] at h2
            subst h2
            simp at hxy
          · cases h2
    | none =>
      rw [hr1] at h1
      cases hl1 : l.codeOf c1 with
      | some q1 =>
        rw [hl1] at h1
        simp only [Option.some.injEq] at h1
        subst h1
        cases hr2 : r.codeOf c2 with
        | some p2 =>
          rw [hr2] at h2
          simp only [Option.some.injEq] at h2
          subst h2
          simp at hxy
        | none =>
          rw [hr2] at h2
          cases hl2 : l.codeOf c2 with
          | some q2 =>
            rw [hl2] at h2
            simp only [Option.some.injEq] at h2
            subst h2
            exact ihl c1 c2 q1 q2 hl1 hl2 (by simpa using hxy)
          | none =>
            rw [hl2] at h2
            simp only at h2
            split at h2
            · simp only [Option.some.injEq] at h2
              subst h2
              simp at hxy
            · cases h2
      | none =>
        rw [hl1] at h1
        simp only at h1
        split at h1
        · rename_i hleaf
          obtain ⟨hl2, hr2⟩ := codeOf_null_children hleaf.1 c2
          rw [hr2, hl2] at h2
          simp only at h2
          split at h2
          · rename_i hleaf2
            rw [hleaf.2, hleaf2.2]
          · cases h2
        · cases h1

/-! ## Runs on two equal counts -/

theorem huffRun_single_inv {t r : NodePtr} (h : HuffRun [t] r) : r = t := by
  cases h with
  | done _ => rfl
  | merge _ a b rest n r h1 _ _ _ _ =>
    have := h1.length_eq
    simp at this

theorem huffRun_pair_inv {x y r : NodePtr} (h : HuffRun [x, y] r) :
    newInternal x y = .ok r ∨ newInternal y x = .ok r := by
  cases h with
  | merge _ a b rest n r h1 _ _ h4 h5 =>
    have hlen := h1.length_eq
    have hrest : rest = [] := by
      cases rest with
      | nil => rfl
      | cons _ _ => simp at hlen
    subst hrest
    have hn := huffRun_single_inv h5
    subst hn
    have hx : x ∈ [a, b] := h1.subset (by simp)
    have hy : y ∈ [a, b] := h1.subset (by simp)
    have ha : a ∈ [x, y] := h1.symm.subset (by simp)
    have hb : b ∈ [x, y] := h1.symm.subset (by simp)
    simp only [List.mem_cons, List.mem_singleton, List.mem_nil_iff, or_false] at hx hy ha hb
    by_cases hxy : x = y
    · subst hxy
      have ha2 : a = x := by tauto
      have hb2 : b = x := by tauto
      subst ha2
      subst hb2
      exact Or.inl h4
    · rcases ha with ha | ha
      · rcases hb with hb | hb
        · subst ha
          subst hb
          rcases hy with h | h <;> exact absurd h.symm hxy
        · subst ha
          subst hb
          exact Or.inl h4
      · rcases hb with hb | hb
        · subst ha
          subst hb
          exact Or.inr h4
        · subst ha
          subst hb
          rcases hx with h | h <;> exact absurd h hxy

theorem buildHuffmanTree_ab (hp : HeapAlgo) :
    buildHuffmanTree hp [('a', 1), ('b', 1)] =
        .ok (.node (Char.ofNat 0) 2 (.node 'a' 1 .null .null) (.node 'b' 1 .null .null)) ∨
      buildHuffmanTree hp [('a', 1), ('b', 1)] =
        .ok (.node (Char.ofNat 0) 2 (.node 'b' 1 .null .null) (.node 'a' 1 .null .null)) := by
  obtain ⟨r, hr, hrun⟩ := buildHuffmanTree_run hp [('a', 1), ('b', 1)] (by simp)
    ⟨by simp, by decide⟩
  rcases huffRun_pair_inv hrun with h | h
  · left
    rw [hr]
    have : newInternal (leafOf ('a', 1)) (leafOf ('b', 1)) = .ok (.node (Char.ofNat 0) 2
        (.node 'a' 1 .null .null) (.node 'b' 1 .null .null)) := rfl
    rw [this] at h
    exact h.symm
  · right
    rw [hr]
    have : newInternal (leafOf ('b', 1)) (leafOf ('a', 1)) = .ok (.node (Char.ofNat 0) 2
        (.node 'b' 1 .null .null) (.node 'a' 1 .null .null)) := rfl
    rw [this] at h
    exact h.symm

theorem headerBytes_extraBits (encodedText : List Char) :
    ∃ rest, headerBytes (extraBitsOf encodedText) = 48 :: rest ∧ rest.length = 7 := by
  have h1 : 1 ≤ extraBitsOf encodedText := by unfold extraBitsOf; omega
  have h2 : extraBitsOf encodedText ≤ 8 := by unfold extraBitsOf; omega
  generalize extraBitsOf encodedText = k at h1 h2
  interval_cases k <;> exact ⟨_, rfl, rfl⟩

/-! ## Depth profiles and the greedy merge -/

theorem kraft_cons (d : ℕ) (ds : Multiset ℕ) :
    kraft (d ::ₘ ds) = ((1 : ℚ) / 2) ^ d + kraft ds := by
  simp [kraft]

theorem pcost_cons (p : ℤ × ℕ) (P : Multiset (ℤ × ℕ)) :
    pcost (p ::ₘ P) = p.1 * (p.2 : ℤ) + pcost P := by
  simp [pcost]

theorem scaled_cons (D d : ℕ) (ds : Multiset ℕ) :
    scaled D (d ::ₘ ds) = 2 ^ (D - d) + scaled D ds := by
  simp [scaled]

theorem scaled_eq_kraft (D : ℕ) (ds : Multiset ℕ) (h : ∀ d ∈ ds, d ≤ D) :
    (scaled D ds : ℚ) = 2 ^ D * kraft ds := by
  induction ds using Multiset.induction_on with
  | empty => simp [scaled, kraft]
  | cons d ds ih =>
    have hd : d ≤ D := h d (Multiset.mem_cons_self _ _)
    have ih2 := ih (fun x hx => h x (Multiset.mem_cons_of_mem hx))
    rw [scaled_cons, kraft_cons, Nat.cast_add, ih2, mul_add]
    congr 1
    have : (2 : ℚ) ^ D = 2 ^ (D - d) * 2 ^ d := by
      rw [← pow_add, Nat.sub_add_cancel hd]
    rw [this]
    push_cast
    rw [one_div, inv_pow, mul_assoc, mul_inv_cancel₀ (by positivity), mul_one]

theorem scaled_mod_two (D : ℕ) (ds : Multiset ℕ) (h : ∀ d ∈ ds, d ≤ D) :
    scaled D ds % 2 = ds.count D % 2 := by
  induction ds using Multiset.induction_on with
  | empty => simp [scaled]
  | cons d ds ih =>
    have hd : d ≤ D := h d (Multiset.mem_cons_self _ _)
    have ih2 := ih (fun x hx => h x (Multiset.mem_cons_of_mem hx))
    rw [scaled_cons, Multiset.count_cons]
    by_cases hdD : D = d
    · subst hdD
      simp only [Nat.sub_self, pow_zero, if_true]
      omega
    · have hlt : 0 < D - d := by omega
      obtain ⟨k, hk⟩ : ∃ k, D - d = k + 1 := ⟨D - d - 1, by omega⟩
      rw [hk, pow_succ, if_neg hdD]
      omega

theorem card_le_scaled (D : ℕ) (ds : Multiset ℕ) : Multiset.card ds ≤ scaled D ds := by
  induction ds using Multiset.induction_on with
  | empty => simp [scaled]
  | cons d ds ih =>
    rw [scaled_cons, Multiset.card_cons]
    have : 1 ≤ 2 ^ (D - d) := Nat.one_le_two_pow
    omega

/-- In a collection of at least two depths with Kraft sum 1, the greatest depth is positive
and occurs at least twice. -/
theorem two_deepest (ds : Multiset ℕ) (hk : kraft ds = 1) (hcard : 2 ≤ Multiset.card ds)
    (D : ℕ) (hD : D ∈ ds) (hmax : ∀ d ∈ ds, d ≤ D) :
    1 ≤ D ∧ 2 ≤ ds.count D := by
  have h1 := scaled_eq_kraft D ds hmax
  rw [hk, mul_one] at h1
  have h2 : scaled D ds = 2 ^ D := by exact_mod_cast h1
  have hpos : 1 ≤ D := by
    by_contra hcon
    have hD0 : D = 0 := by omega
    have := card_le_scaled D ds
    rw [h2, hD0] at this
    simp at this
    omega
  refine ⟨hpos, ?_⟩
  have h3 := scaled_mod_two D ds hmax
  rw [h2] at h3
  obtain ⟨k, hk2⟩ : ∃ k, D = k + 1 := ⟨D - 1, by omega⟩
  have h4 : 2 ^ D % 2 = 0 := by
    rw [hk2, pow_succ]
    omega
  have h5 : 1 ≤ ds.count D := Multiset.one_le_count_iff_mem.mpr hD
  omega


/-- Exchange step: a weight `a` not above any weight of `Q` can take over the greatest depth
`D` from whoever has it, without raising the weighted path length. -/
theorem pull_deepest (Q : Multiset (ℤ × ℕ)) (a : ℤ) (da D : ℕ)
    (ha : ∀ p ∈ Q, a ≤ p.1) (hda : da ≤ D)
    (hD : D ∈ da ::ₘ Q.map Prod.snd) :
    ∃ Q1 : Multiset (ℤ × ℕ), Q1.map Prod.fst = Q.map Prod.fst ∧
      D ::ₘ Q1.map Prod.snd = da ::ₘ Q.map Prod.snd ∧
      a * (D : ℤ) + pcost Q1 ≤ a * (da : ℤ) + pcost Q := by
  by_cases hdD : D = da
  · subst hdD
    exact ⟨Q, rfl, rfl, le_refl _⟩
  · have hmem : D ∈ Q.map Prod.snd := by
      rcases Multiset.mem_cons.mp hD with h | h
      · exact absurd h hdD
      · exact h
    obtain ⟨p, hp, hpD⟩ := Multiset.mem_map.mp hmem
    obtain ⟨Q0, hQ0⟩ := Multiset.exists_cons_of_mem hp
    obtain ⟨x, d⟩ := p
    simp only at hpD
    subst hpD
    refine ⟨(x, da) ::ₘ Q0, ?_, ?_, ?_⟩
    · rw [hQ0]
      simp
    · rw [hQ0]
      simp only [Multiset.map_cons]
      exact Multiset.cons_swap _ _ _
    · rw [hQ0, pcost_cons, pcost_cons]
      have hax : a ≤ x := ha (x, d) hp
      have hle : (da : ℤ) ≤ (d : ℤ) := by exact_mod_cast hda
      simp only
      nlinarith [mul_nonneg (sub_nonneg.mpr hax) (sub_nonneg.mpr hle)]

theorem exists_max_depth (ds : Multiset ℕ) (hne : ds ≠ 0) :
    ∃ D ∈ ds, ∀ d ∈ ds, d ≤ D := by
  obtain ⟨x, hx⟩ := Multiset.exists_mem_of_ne_zero hne
  have hfin : ds.toFinset.Nonempty := ⟨x, Multiset.mem_toFinset.mpr hx⟩
  obtain ⟨D, hD, hmax⟩ := ds.toFinset.exists_max_image id hfin
  exact ⟨D, Multiset.mem_toFinset.mp hD, fun d hd => hmax d (Multiset.mem_toFinset.mpr hd)⟩

theorem exists_cons_of_map_fst (P : Multiset (ℤ × ℕ)) (a : ℤ) (s : Multiset ℤ)
    (h : P.map Prod.fst = a ::ₘ s) :
    ∃ d P1, P = (a, d) ::ₘ P1 ∧ P1.map Prod.fst = s := by
  have ha : a ∈ P.map Prod.fst := by rw [h]; exact Multiset.mem_cons_self _ _
  obtain ⟨p, hp, hpa⟩ := Multiset.mem_map.mp ha
  obtain ⟨P1, hP1⟩ := Multiset.exists_cons_of_mem hp
  obtain ⟨x, d⟩ := p
  simp only at hpa
  subst hpa
  refine ⟨d, P1, hP1, ?_⟩
  rw [hP1, Multiset.map_cons] at h
  exact (Multiset.cons_inj_right _).mp h

/-- Merging step on profiles: a profile with Kraft sum 1 whose two least weights are `a` and
`b` gives a profile for the merged weights, again with Kraft sum 1, that is cheaper by at
least `a + b`. -/
theorem merge_profile (P : Multiset (ℤ × ℕ)) (a b : ℤ) (s : Multiset ℤ)
    (hP : P.map Prod.fst = a ::ₘ b ::ₘ s) (hk : kraft (P.map Prod.snd) = 1)
    (ha : ∀ x ∈ b ::ₘ s, a ≤ x) (hb : ∀ x ∈ s, b ≤ x) :
    ∃ P1 : Multiset (ℤ × ℕ), P1.map Prod.fst = (a + b) ::ₘ s ∧
      kraft (P1.map Prod.snd) = 1 ∧ pcost P1 + (a + b) ≤ pcost P := by
  obtain ⟨da, Pa, hPa, hPa2⟩ := exists_cons_of_map_fst P a _ hP
  have hcard : 2 ≤ Multiset.card (P.map Prod.snd) := by
    rw [Multiset.card_map, ← Multiset.card_map Prod.fst, hP]
    simp
  have hne : P.map Prod.snd ≠ 0 := by
    intro h
    rw [h] at hcard
    simp at hcard
  obtain ⟨D, hD, hmax⟩ := exists_max_depth _ hne
  obtain ⟨hDpos, hcount⟩ := two_deepest _ hk hcard D hD hmax
  have hds : P.map Prod.snd = da ::ₘ Pa.map Prod.snd := by rw [hPa]; simp
  -- first exchange: `a` goes to depth `D`
  have haQ : ∀ p ∈ Pa, a ≤ p.1 := by
    intro p hp
    apply ha
    rw [← hPa2]
    exact Multiset.mem_map_of_mem _ hp
  obtain ⟨Q1, hQ1f, hQ1s, hQ1c⟩ := pull_deepest Pa a da D haQ
    (hmax da (by rw [hds]; exact Multiset.mem_cons_self _ _)) (by rw [← hds]; exact hD)
  -- the entry of `b`
  obtain ⟨db, Pb, hPb, hPb2⟩ := exists_cons_of_map_fst Q1 b s (by rw [hQ1f, hPa2])
  have hds2 : P.map Prod.snd = D ::ₘ db ::ₘ Pb.map Prod.snd := by
    rw [hds, ← hQ1s, hPb]
    simp
  have hbQ : ∀ p ∈ Pb, b ≤ p.1 := by
    intro p hp
    apply hb
    rw [← hPb2]
    exact Multiset.mem_map_of_mem _ hp
  have hD2 : D ∈ db ::ₘ Pb.map Prod.snd := by
    rw [hds2, Multiset.count_cons_self] at hcount
    exact Multiset.one_le_count_iff_mem.mp (by omega)
  obtain ⟨Q2, hQ2f, hQ2s, hQ2c⟩ := pull_deepest Pb b db D hbQ
    (hmax db (by rw [hds2]; simp)) hD2
  have hds3 : P.map Prod.snd = D ::ₘ D ::ₘ Q2.map Prod.snd := by
    rw [hds2, hQ2s]
  refine ⟨(a + b, D - 1) ::ₘ Q2, ?_, ?_, ?_⟩
  · simp [hQ2f, hPb2]
  · rw [hds3, kraft_cons, kraft_cons] at hk
    rw [Multiset.map_cons, kraft_cons]
    obtain ⟨k, hk2⟩ : ∃ k, D = k + 1 := ⟨D - 1, by omega⟩
    subst hk2
    simp only [Nat.add_sub_cancel]
    rw [pow_succ] at hk
    linarith
  · rw [pcost_cons]
    have e1 : pcost P = a * (da : ℤ) + pcost Pa := by rw [hPa, pcost_cons]
    have e2 : pcost Q1 = b * (db : ℤ) + pcost Pb := by rw [hPb, pcost_cons]
    have hcast : ((D - 1 : ℕ) : ℤ) = (D : ℤ) - 1 := by
      rw [Nat.cast_sub hDpos]
      simp
    simp only
    rw [hcast]
    nlinarith

/-- The total merged weight of the greedy procedure is at most the weighted path length of
any assignment of depths with Kraft sum 1. -/
theorem huffCost_le_pcost (ws : Multiset ℤ) (C : ℤ) (h : HuffCost ws C) :
    ∀ P : Multiset (ℤ × ℕ), P.map Prod.fst = ws → kraft (P.map Prod.snd) = 1 →
      C ≤ pcost P := by
  induction h with
  | single w =>
    intro P hP hk
    obtain ⟨d, P1, hP1, hP12⟩ := exists_cons_of_map_fst P w 0 hP
    have hP10 : P1 = 0 := Multiset.map_eq_zero.mp hP12
    subst hP10
    subst hP1
    simp only [Multiset.map_cons, Multiset.map_zero, kraft_cons] at hk
    have hd : d = 0 := by
      by_contra hd
      have : ((1 : ℚ) / 2) ^ d < 1 := pow_lt_one₀ (by norm_num) (by norm_num) hd
      have hz : kraft 0 = 0 := by simp [kraft]
      rw [hz, add_zero] at hk
      rw [hk] at this
      exact lt_irrefl _ this
    subst hd
    simp [pcost]
  | step a b s C ha hb _ ih =>
    intro P hP hk
    obtain ⟨P1, h1, h2, h3⟩ := merge_profile P a b s hP hk ha hb
    have := ih P1 h1 h2
    linarith

/-- A profile with Kraft sum at most 1 and non-negative weights can be made complete (Kraft
sum 1) by making leaves shallower, which does not raise the weighted path length. -/
theorem complete_profile (n : ℕ) :
    ∀ P : Multiset (ℤ × ℕ), (P.map Prod.snd).sum = n → P ≠ 0 → (∀ p ∈ P, 0 ≤ p.1) →
      kraft (P.map Prod.snd) ≤ 1 →
      ∃ P1 : Multiset (ℤ × ℕ), P1.map Prod.fst = P.map Prod.fst ∧
        kraft (P1.map Prod.snd) = 1 ∧ pcost P1 ≤ pcost P := by
  induction n using Nat.strong_induction_on with
  | _ n ih =>
    intro P hn hne hw hk
    rcases eq_or_lt_of_le hk with heq | hlt
    · exact ⟨P, rfl, heq, le_refl _⟩
    · have hne2 : P.map Prod.snd ≠ 0 := by
        intro h
        exact hne (Multiset.map_eq_zero.mp h)
      obtain ⟨D, hD, hmax⟩ := exists_max_depth _ hne2
      have hs := scaled_eq_kraft D _ hmax
      have hcard : 1 ≤ Multiset.card (P.map Prod.snd) := by
        rcases Nat.eq_zero_or_pos (Multiset.card (P.map Prod.snd)) with h | h
        · exact absurd (Multiset.card_eq_zero.mp h) hne2
        · exact h
      have hpow : (0 : ℚ) < 2 ^ D := by positivity
      have hslt : scaled D (P.map Prod.snd) < 2 ^ D := by
        have : (scaled D (P.map Prod.snd) : ℚ) < 2 ^ D := by
          rw [hs]
          calc (2 : ℚ) ^ D * kraft (P.map Prod.snd) < 2 ^ D * 1 :=
                mul_lt_mul_of_pos_left hlt hpow
            _ = 2 ^ D := mul_one _
        exact_mod_cast this
      have hDpos : 1 ≤ D := by
        by_contra hcon
        have hD0 : D = 0 := by omega
        have := card_le_scaled D (P.map Prod.snd)
        rw [hD0] at hslt this
        simp at hslt
        omega
      obtain ⟨p, hp, hpD⟩ := Multiset.mem_map.mp hD
      obtain ⟨P0, hP0⟩ := Multiset.exists_cons_of_mem hp
      obtain ⟨x, d⟩ := p
      simp only at hpD
      subst hpD
      obtain ⟨k, hk2⟩ : ∃ k, d = k + 1 := ⟨d - 1, by omega⟩
      subst hk2
      have hsum : (P.map Prod.snd).sum = (k + 1) + (P0.map Prod.snd).sum := by
        rw [hP0]
        simp
      have hkP : kraft (P.map Prod.snd) =
          ((1 : ℚ) / 2) ^ (k + 1) + kraft (P0.map Prod.snd) := by
        rw [hP0, Multiset.map_cons, kraft_cons]
      have hk3 : kraft (((x, k) ::ₘ P0).map Prod.snd) ≤ 1 := by
        rw [Multiset.map_cons, kraft_cons]
        have h1 : (scaled (k + 1) (P.map Prod.snd) : ℚ) + 1 ≤ 2 ^ (k + 1) := by
          have : scaled (k + 1) (P.map Prod.snd) + 1 ≤ 2 ^ (k + 1) := hslt
          exact_mod_cast this
        rw [hs, hkP] at h1
        have h2 : (2 : ℚ) ^ (k + 1) * ((1 : ℚ) / 2) ^ (k + 1) = 1 := by
          rw [← mul_pow]
          norm_num
        have h3 : ((1 : ℚ) / 2) ^ k = 2 * ((1 : ℚ) / 2) ^ (k + 1) := by
          rw [pow_succ]
          ring
        have h4 : (0 : ℚ) < ((1 : ℚ) / 2) ^ (k + 1) := by positivity
        rw [h3]
        have h5 : (2 : ℚ) ^ (k + 1) * (2 * ((1 : ℚ) / 2) ^ (k + 1) + kraft (P0.map Prod.snd))
            ≤ 2 ^ (k + 1) * 1 := by
          have : (2 : ℚ) ^ (k + 1) * (2 * ((1 : ℚ) / 2) ^ (k + 1) + kraft (P0.map Prod.snd))
              = 2 ^ (k + 1) * (((1 : ℚ) / 2) ^ (k + 1) + kraft (P0.map Prod.snd)) + 1 := by
            rw [mul_add, mul_add, ← mul_assoc, mul_comm ((2 : ℚ) ^ (k + 1)) 2, mul_assoc, h2]
            ring
          rw [this]
          linarith
        exact le_of_mul_le_mul_left h5 hpow
      have hw2 : ∀ q ∈ (x, k) ::ₘ P0, 0 ≤ q.1 := by
        intro q hq
        rcases Multiset.mem_cons.mp hq with rfl | hq
        · exact hw (x, k + 1) hp
        · exact hw q (by rw [hP0]; exact Multiset.mem_cons_of_mem hq)
      obtain ⟨P1, h1, h2, h3⟩ := ih (k + (P0.map Prod.snd).sum) (by omega) ((x, k) ::ₘ P0)
        (by simp) (Multiset.cons_ne_zero) hw2 hk3
      refine ⟨P1, ?_, h2, ?_⟩
      · rw [h1, hP0]
        simp
      · have hx : 0 ≤ x := hw (x, k + 1) hp
        rw [hP0, pcost_cons]
        rw [pcost_cons] at h3
        simp only at h3 ⊢
        push_cast
        nlinarith

/-- The greedy total is at most the weighted path length of any non-empty assignment of
depths with Kraft sum at most 1, when the weights are non-negative. -/
theorem huffCost_le_pcost_of_le (ws : Multiset ℤ) (C : ℤ) (h : HuffCost ws C)
    (P : Multiset (ℤ × ℕ)) (hP : P.map Prod.fst = ws) (hne : P ≠ 0)
    (hw : ∀ p ∈ P, 0 ≤ p.1) (hk : kraft (P.map Prod.snd) ≤ 1) : C ≤ pcost P := by
  obtain ⟨P1, h1, h2, h3⟩ := complete_profile _ P rfl hne hw hk
  exact le_trans (huffCost_le_pcost ws C h P1 (h1.trans hP) h2) h3

/-! ## Trees, profiles and weighted path length -/

theorem pcost_profile (w : Char → Int) (t : NodePtr) (k : Nat) :
    pcost (profile w t k) = wplAt w t k := by
  induction t generalizing k with
  | null => simp [profile, wplAt, pcost]
  | node ch f l r ihl ihr =>
    simp only [profile, wplAt]
    split
    · simp [pcost]
    · rw [← ihl, ← ihr]
      simp [pcost]

theorem profile_weights (w : Char → Int) (t : NodePtr) (k : Nat) :
    (profile w t k).map Prod.fst = ((t.leaves.map w : List Int) : Multiset Int) := by
  induction t generalizing k with
  | null => simp [profile, NodePtr.leaves]
  | node ch f l r ihl ihr =>
    simp only [profile, NodePtr.leaves]
    split
    · simp
    · rw [Multiset.map_add, ihl, ihr]
      simp

theorem kraft_add (s t : Multiset ℕ) : kraft (s + t) = kraft s + kraft t := by
  simp [kraft]

theorem kraft_profile_le (w : Char → Int) (t : NodePtr) (k : Nat) :
    kraft ((profile w t k).map Prod.snd) ≤ ((1 : ℚ) / 2) ^ k := by
  induction t generalizing k with
  | null =>
    simp only [profile, Multiset.map_zero]
    have : kraft 0 = 0 := by simp [kraft]
    rw [this]
    positivity
  | node ch f l r ihl ihr =>
    simp only [profile]
    split
    · simp [kraft]
    · rw [Multiset.map_add, kraft_add]
      have h1 := ihl (k + 1)
      have h2 := ihr (k + 1)
      have h3 : ((1 : ℚ) / 2) ^ k = 2 * ((1 : ℚ) / 2) ^ (k + 1) := by
        rw [pow_succ]
        ring
      rw [h3]
      linarith

theorem wplAt_succ (w : Char → Int) (t : NodePtr) (k : Nat) :
    wplAt w t (k + 1) = wplAt w t k + (t.leaves.map w).sum := by
  induction t generalizing k with
  | null => simp [wplAt, NodePtr.leaves]
  | node ch f l r ihl ihr =>
    simp only [wplAt, NodePtr.leaves]
    split
    · simp
      ring
    · rw [ihl (k + 1), ihr (k + 1)]
      simp
      ring

theorem codeOf_isSome_iff (t : NodePtr) (c : Char) :
    (t.codeOf c).isSome = true ↔ c ∈ t.leaves := by
  induction t with
  | null => simp [NodePtr.codeOf, NodePtr.leaves]
  | node ch f l r ihl ihr =>
    simp only [NodePtr.codeOf, NodePtr.leaves]
    by_cases hleaf : (l.isNull && r.isNull) = true
    · obtain ⟨h1, h2⟩ := codeOf_null_children hleaf c
      rw [h1, h2]
      simp only [hleaf, true_and, if_true, List.mem_singleton]
      by_cases hc : c = ch <;> simp [hc]
    · simp only [hleaf, false_and, if_false, List.mem_append]
      cases hr : r.codeOf c with
      | some p =>
        have := ihr.mp (by rw [hr]; rfl)
        simp [this]
      | none =>
        have hnr : c ∉ r.leaves := fun h => by
          have := ihr.mpr h
          rw [hr] at this
          cases this
        cases hl : l.codeOf c with
        | some p =>
          have := ihl.mp (by rw [hl]; rfl)
          simp [this]
        | none =>
          have hnl : c ∉ l.leaves := fun h => by
            have := ihl.mpr h
            rw [hl] at this
            cases this
          simp [hnl, hnr]

theorem codeLen_node_right {ch : Char} {f : Int} {l r : NodePtr} {c : Char}
    (hc : c ∈ r.leaves) :
    (((NodePtr.node ch f l r).codeOf c).getD []).length = ((r.codeOf c).getD []).length + 1 := by
  have h := (codeOf_isSome_iff r c).mpr hc
  cases hr : r.codeOf c with
  | none => rw [hr] at h; cases h
  | some p => simp [NodePtr.codeOf, hr]

theorem codeLen_node_left {ch : Char} {f : Int} {l r : NodePtr} {c : Char}
    (hc : c ∈ l.leaves) (hnr : c ∉ r.leaves) :
    (((NodePtr.node ch f l r).codeOf c).getD []).length = ((l.codeOf c).getD []).length + 1 := by
  have h := (codeOf_isSome_iff l c).mpr hc
  have hr : r.codeOf c = none := by
    cases hr : r.codeOf c with
    | none => rfl
    | some p =>
      exact absurd ((codeOf_isSome_iff r c).mp (by rw [hr]; rfl)) hnr
  cases hl : l.codeOf c with
  | none => rw [hl] at h; cases h
  | some p => simp [NodePtr.codeOf, hr, hl]

theorem wplAt_eq_sum_codeLen (w : Char → Int) (t : NodePtr) (hnd : t.leaves.Nodup) (k : Nat) :
    wplAt w t k =
      (t.leaves.map (fun c => w c * ((k : Int) + (((t.codeOf c).getD []).length : Int)))).sum := by
  induction t generalizing k with
  | null => simp [wplAt, NodePtr.leaves]
  | node ch f l r ihl ihr =>
    by_cases hleaf : (l.isNull && r.isNull) = true
    · obtain ⟨h1, h2⟩ := codeOf_null_children hleaf ch
      simp [wplAt, NodePtr.leaves, hleaf, NodePtr.codeOf, h1, h2]
    · have hlv : (NodePtr.node ch f l r).leaves = l.leaves ++ r.leaves := by
        simp [NodePtr.leaves, hleaf]
      rw [hlv] at hnd ⊢
      obtain ⟨hndl, hndr, hdisj⟩ := List.nodup_append.mp hnd
      have hw : wplAt w (NodePtr.node ch f l r) k = wplAt w l (k + 1) + wplAt w r (k + 1) := by
        simp [wplAt, hleaf]
      rw [hw, ihl hndl (k + 1), ihr hndr (k + 1), List.map_append, List.sum_append]
      congr 1
      · congr 1
        apply List.map_congr_left
        intro c hc
        rw [codeLen_node_left hc (fun h => hdisj hc h)]
        push_cast
        ring
      · congr 1
        apply List.map_congr_left
        intro c hc
        rw [codeLen_node_right hc]
        push_cast
        ring

theorem freqIn_of_mem (freqMap : List (Char × Int)) (hnd : (freqMap.map Prod.fst).Nodup)
    (c : Char) (f : Int) (h : (c, f) ∈ freqMap) : freqIn freqMap c = f := by
  induction freqMap with
  | nil => simp at h
  | cons p ps ih =>
    obtain ⟨k, g⟩ := p
    simp only [List.map_cons, List.nodup_cons] at hnd
    rcases List.mem_cons.mp h with heq | hmem
    · simp only [Prod.mk.injEq] at heq
      obtain ⟨rfl, rfl⟩ := heq
      simp [freqIn]
    · have hne : c ≠ k := by
        rintro rfl
        exact hnd.1 (List.mem_map.mpr ⟨(c, f), hmem, rfl⟩)
      simp only [freqIn, hne, if_false]
      exact ih hnd.2 hmem

theorem map_freqIn_keys (freqMap : List (Char × Int)) (hnd : (freqMap.map Prod.fst).Nodup) :
    (freqMap.map Prod.fst).map (freqIn freqMap) = freqMap.map Prod.snd := by
  rw [List.map_map]
  apply List.map_congr_left
  intro p hp
  exact freqIn_of_mem freqMap hnd p.1 p.2 hp

/-- For a tree whose leaves are the symbols of the map, each once, the weighted path length
in the terms of the program is the sum over the leaves of count times depth. -/
theorem weightedPathLength_eq_wplAt (freqMap : List (Char × Int))
    (hnd : (freqMap.map Prod.fst).Nodup) (t : NodePtr)
    (ht : t.leaves.Perm (freqMap.map Prod.fst)) :
    weightedPathLength freqMap t = wplAt (freqIn freqMap) t 0 := by
  have hndt : t.leaves.Nodup := ht.nodup_iff.mpr hnd
  rw [wplAt_eq_sum_codeLen _ t hndt 0]
  have h1 : weightedPathLength freqMap t =
      ((freqMap.map Prod.fst).map (fun c => freqIn freqMap c *
        (((0 : Nat) : Int) + (((t.codeOf c).getD []).length : Int)))).sum := by
    unfold weightedPathLength
    rw [List.map_map]
    congr 1
    apply List.map_congr_left
    intro p hp
    simp only [Function.comp, lookupCode, generateCodes_root]
    rw [freqIn_of_mem freqMap hnd p.1 p.2 hp]
    simp
  rw [h1]
  exact ((ht.map _).sum_eq).symm

/-! ## The cost of a run of the merge loop -/

theorem leaves_internal {ch : Char} {f : Int} {a b : NodePtr} (ha : a.isNull = false) :
    (NodePtr.node ch f a b).leaves = a.leaves ++ b.leaves := by
  simp [NodePtr.leaves, ha]

theorem wplAt_internal (w : Char → Int) {ch : Char} {f : Int} {a b : NodePtr}
    (ha : a.isNull = false) (k : Nat) :
    wplAt w (NodePtr.node ch f a b) k = wplAt w a (k + 1) + wplAt w b (k + 1) := by
  simp [wplAt, ha]

theorem newInternal_inv {a b n : NodePtr} (h : newInternal a b = .ok n) :
    a.isNull = false ∧ b.isNull = false ∧
      n = .node (Char.ofNat 0) (a.freqOf + b.freqOf) a b := by
  cases a with
  | null => simp [newInternal] at h
  | node ca fa la ra =>
    cases b with
    | null => simp [newInternal] at h
    | node cb fb lb rb =>
      simp only [newInternal, addInt] at h
      split at h
      · simp only [bind, Except.bind, Except.ok.injEq] at h
        exact ⟨rfl, rfl, h.symm⟩
      · simp [bind, Except.bind] at h

/-- What a run of the merge loop produces from trees whose `freq` field is the sum of the
counts of their leaves: the leaves of the result are those of the trees, its `freq` field
is again the sum of their counts, and its weighted path length is that of the trees plus a
greedy total for their `freq` fields. -/
theorem huffRun_cost (w : Char → Int) (l : List NodePtr) (r : NodePtr) (h : HuffRun l r) :
    (∀ t ∈ l, t.isNull = false ∧ t.freqOf = (t.leaves.map w).sum) →
      r.leaves.Perm (l.flatMap NodePtr.leaves) ∧
      (r.isNull = false ∧ r.freqOf = (r.leaves.map w).sum) ∧
      ∃ C, HuffCost ((l.map NodePtr.freqOf : List Int) : Multiset Int) C ∧
        wplAt w r 0 = (l.map (fun t => wplAt w t 0)).sum + C := by
  induction h with
  | done t =>
    intro hl
    refine ⟨by simp, hl t (by simp), 0, ?_, by simp⟩
    exact HuffCost.single _
  | merge l a b rest n r hperm hamin hbmin hn _ ih =>
    intro hl
    obtain ⟨hanull, hbnull, hneq⟩ := newInternal_inv hn
    have ha := hl a (hperm.symm.subset (by simp))
    have hb := hl b (hperm.symm.subset (by simp))
    have hnl : n.leaves = a.leaves ++ b.leaves := by
      rw [hneq]
      exact leaves_internal hanull
    have hnw : n.freqOf = a.freqOf + b.freqOf := by
      rw [hneq]
      rfl
    have hl2 : ∀ t ∈ n :: rest, t.isNull = false ∧ t.freqOf = (t.leaves.map w).sum := by
      intro t ht
      rcases List.mem_cons.mp ht with rfl | ht
      · refine ⟨by rw [hneq]; rfl, ?_⟩
        rw [hnw, hnl, ha.2, hb.2]
        simp
      · exact hl t (hperm.symm.subset (by simp [ht]))
    obtain ⟨hlv, hroot, C, hC, hcost⟩ := ih hl2
    refine ⟨?_, hroot, C + (a.freqOf + b.freqOf), ?_, ?_⟩
    · refine hlv.trans ?_
      have : (n :: rest).flatMap NodePtr.leaves = (a :: b :: rest).flatMap NodePtr.leaves := by
        simp [List.flatMap_cons, hnl]
      rw [this]
      exact (hperm.flatMap_right _).symm
    · have hm : ((l.map NodePtr.freqOf : List Int) : Multiset Int) =
          a.freqOf ::ₘ b.freqOf ::ₘ ((rest.map NodePtr.freqOf : List Int) : Multiset Int) := by
        rw [Multiset.cons_coe, Multiset.cons_coe]
        exact Multiset.coe_eq_coe.mpr (hperm.map _)
      rw [hm]
      refine HuffCost.step _ _ _ C ?_ ?_ ?_
      · intro x hx
        rw [Multiset.cons_coe, Multiset.mem_coe, ← List.map_cons] at hx
        obtain ⟨y, hy, rfl⟩ := List.mem_map.mp hx
        exact hamin y hy
      · intro x hx
        rw [Multiset.mem_coe] at hx
        obtain ⟨y, hy, rfl⟩ := List.mem_map.mp hx
        exact hbmin y hy
      · have : ((a.freqOf + b.freqOf) ::ₘ ((rest.map NodePtr.freqOf : List Int) : Multiset Int))
            = (((n :: rest).map NodePtr.freqOf : List Int) : Multiset Int) := by
          rw [List.map_cons, hnw]
          rfl
        rw [this]
        exact hC
    · rw [hcost]
      have hsum : (l.map (fun t => wplAt w t 0)).sum =
          ((a :: b :: rest).map (fun t => wplAt w t 0)).sum := (hperm.map _).sum_eq
      rw [hsum]
      simp only [List.map_cons, List.sum_cons]
      have hwn : wplAt w n 0 = wplAt w a 1 + wplAt w b 1 := by
        rw [hneq]
        exact wplAt_internal w hanull 0
      rw [hwn, wplAt_succ w a 0, wplAt_succ w b 0, ha.2, hb.2]
      ring

theorem leaves_of_leafOf (freqMap : List (Char × Int)) :
    (freqMap.map leafOf).flatMap NodePtr.leaves = freqMap.map Prod.fst := by
  induction freqMap with
  | nil => rfl
  | cons p ps ih =>
    simp only [List.map_cons, List.flatMap_cons, ih]
    rfl

theorem freqOf_of_leafOf (freqMap : List (Char × Int)) :
    (freqMap.map leafOf).map NodePtr.freqOf = freqMap.map Prod.snd := by
  rw [List.map_map]
  rfl

theorem wplAt_of_leafOf (w : Char → Int) (freqMap : List (Char × Int)) :
    ((freqMap.map leafOf).map (fun t => wplAt w t 0)).sum = 0 := by
  induction freqMap with
  | nil => rfl
  | cons p ps ih =>
    simp only [List.map_cons, List.sum_cons, ih]
    simp [leafOf, wplAt, NodePtr.isNull]

/-- The tree of a run of the merge loop on the leaves of a frequency map: its leaves are the
symbols of the map, and no tree with these leaves has a smaller weighted path length. -/
theorem huffRun_optimal (freqMap : List (Char × Int))
    (hnd : (freqMap.map Prod.fst).Nodup) (hr : CountsInRange freqMap) (root : NodePtr)
    (hrun : HuffRun (freqMap.map leafOf) root) :
    root.leaves.Perm (freqMap.map Prod.fst) ∧
      ∀ t : NodePtr, t.leaves.Perm (freqMap.map Prod.fst) →
        weightedPathLength freqMap root ≤ weightedPathLength freqMap t := by
  have hl : ∀ t ∈ freqMap.map leafOf,
      t.isNull = false ∧ t.freqOf = (t.leaves.map (freqIn freqMap)).sum := by
    intro t ht
    obtain ⟨p, hp, rfl⟩ := List.mem_map.mp ht
    refine ⟨rfl, ?_⟩
    have : (leafOf p).leaves = [p.1] := rfl
    rw [this]
    simp only [List.map_cons, List.map_nil, List.sum_cons, List.sum_nil, add_zero]
    rw [freqIn_of_mem freqMap hnd p.1 p.2 hp]
    rfl
  obtain ⟨hlv, _, C, hC, hcost⟩ := huffRun_cost (freqIn freqMap) _ root hrun hl
  rw [leaves_of_leafOf] at hlv
  rw [freqOf_of_leafOf] at hC
  rw [wplAt_of_leafOf, zero_add] at hcost
  refine ⟨hlv, ?_⟩
  intro t ht
  rw [weightedPathLength_eq_wplAt freqMap hnd root hlv,
    weightedPathLength_eq_wplAt freqMap hnd t ht, hcost, ← pcost_profile]
  have hw : (profile (freqIn freqMap) t 0).map Prod.fst =
      ((freqMap.map Prod.snd : List Int) : Multiset Int) := by
    rw [profile_weights, ← map_freqIn_keys freqMap hnd]
    exact Multiset.coe_eq_coe.mpr (ht.map _)
  apply huffCost_le_pcost_of_le _ C hC _ hw
  · intro h0
    rw [h0, Multiset.map_zero] at hw
    have hlen := congrArg Multiset.card hw
    simp only [Multiset.card_zero, Multiset.coe_card, List.length_map] at hlen
    have hnil : freqMap = [] := List.length_eq_zero.mp hlen.symm
    subst hnil
    cases hrun with
    | merge _ a b rest n r h1 _ _ _ _ => simpa using h1.length_eq
  · intro p hp
    have hmem : p.1 ∈ (profile (freqIn freqMap) t 0).map Prod.fst :=
      Multiset.mem_map_of_mem _ hp
    rw [hw, Multiset.mem_coe] at hmem
    obtain ⟨q, hq, hq2⟩ := List.mem_map.mp hmem
    rw [← hq2]
    exact hr.1 q hq
  · simpa using kraft_profile_le (freqIn freqMap) t 0

/-! ## Packing and expanding bytes -/

theorem expandBytes_cons (b : Nat) (bs : List Nat) :
    expandBytes (b :: bs) = bitsetToString b ++ expandBytes bs := by
  have key : ∀ (l : List Nat) (acc : List Char),
      l.foldl (fun encodedBinary byte => encodedBinary ++ bitsetToString byte) acc =
        acc ++ l.foldl (fun encodedBinary byte => encodedBinary ++ bitsetToString byte) [] := by
    intro l
    induction l with
    | nil => intro acc; simp
    | cons x xs ih =>
      intro acc
      simp only [List.foldl_cons, List.nil_append]
      rw [ih (acc ++ bitsetToString x), ih (bitsetToString x), List.append_assoc]
  simp only [expandBytes, List.foldl_cons, List.nil_append]
  exact key bs _

theorem byte_roundtrip (c0 c1 c2 c3 c4 c5 c6 c7 : Char)
    (h0 : c0 = '0' ∨ c0 = '1') (h1 : c1 = '0' ∨ c1 = '1') (h2 : c2 = '0' ∨ c2 = '1')
    (h3 : c3 = '0' ∨ c3 = '1') (h4 : c4 = '0' ∨ c4 = '1') (h5 : c5 = '0' ∨ c5 = '1')
    (h6 : c6 = '0' ∨ c6 = '1') (h7 : c7 = '0' ∨ c7 = '1') :
    ∃ v, bitsetOfString [c0, c1, c2, c3, c4, c5, c6, c7] = .ok v ∧
      bitsetToString (v % 256) = [c0, c1, c2, c3, c4, c5, c6, c7] := by
  rcases h0 with rfl | rfl <;> rcases h1 with rfl | rfl <;> rcases h2 with rfl | rfl <;>
    rcases h3 with rfl | rfl <;> rcases h4 with rfl | rfl <;> rcases h5 with rfl | rfl <;>
    rcases h6 with rfl | rfl <;> rcases h7 with rfl | rfl <;> exact ⟨_, rfl, rfl⟩

/-- Packing a string of binary digits whose length is a multiple of 8 and expanding the bytes
again gives the string back. -/
theorem packLoop_expand (s : List Char) (hs : IsBits s) (h8 : s.length % 8 = 0) :
    ∃ payload, packLoop s = .ok payload ∧ expandBytes payload = s := by
  induction s using packLoop.induct with
  | case1 => exact ⟨[], rfl, rfl⟩
  | case2 c0 c1 c2 c3 c4 c5 c6 c7 rest ih =>
    have hr : IsBits rest := fun x hx => hs x (by simp [hx])
    have hlen : rest.length % 8 = 0 := by
      simp only [List.length_cons] at h8
      omega
    obtain ⟨v, hv, hback⟩ := byte_roundtrip c0 c1 c2 c3 c4 c5 c6 c7
      (hs c0 (by simp)) (hs c1 (by simp)) (hs c2 (by simp)) (hs c3 (by simp))
      (hs c4 (by simp)) (hs c5 (by simp)) (hs c6 (by simp)) (hs c7 (by simp))
    obtain ⟨more, hm, hexp⟩ := ih hr hlen
    refine ⟨v % 256 :: more, ?_, ?_⟩
    · simp [packLoop, hv, hm]
      rfl
    · rw [expandBytes_cons, hback, hexp]
      rfl
  | case3 block hne hshort =>
    exfalso
    rcases block with _ | ⟨a0, _ | ⟨a1, _ | ⟨a2, _ | ⟨a3, _ | ⟨a4, _ | ⟨a5, _ | ⟨a6, _ | ⟨a7, r⟩⟩⟩⟩⟩⟩⟩⟩
    all_goals first
      | exact hne rfl
      | exact hshort _ _ _ _ _ _ _ _ _ rfl
      | simp at h8

theorem saveBinaryFile_expand (encodedText : List Char) (hs : IsBits encodedText) :
    ∃ payload, saveBinaryFile encodedText =
        .ok (headerBytes (extraBitsOf encodedText) ++ payload) ∧
      expandBytes payload =
        encodedText ++ List.replicate (8 - encodedText.length % 8) '0' := by
  have hp : IsBits (encodedText ++ List.replicate (extraBitsOf encodedText) '0') := by
    intro c hc
    rcases List.mem_append.mp hc with h | h
    · exact hs c h
    · exact Or.inl (List.eq_of_mem_replicate h)
  have hlen : (encodedText ++ List.replicate (extraBitsOf encodedText) '0').length % 8 = 0 := by
    simp only [List.length_append, List.length_replicate, extraBitsOf]
    omega
  obtain ⟨payload, hpk, hexp⟩ := packLoop_expand _ hp hlen
  refine ⟨payload, ?_, hexp⟩
  simp [saveBinaryFile, hpk]
  rfl

/-! ## The shape of the tree of a run -/

theorem leaves_eq_map_leafEntries (t : NodePtr) : t.leaves = t.leafEntries.map Prod.fst := by
  induction t with
  | null => rfl
  | node ch f l r ihl ihr =>
    simp only [NodePtr.leaves, NodePtr.leafEntries]
    split
    · rfl
    · rw [ihl, ihr, List.map_append]

theorem isFull_internal {ch : Char} {f : Int} {a b : NodePtr}
    (ha : a.isFull = true) (hb : b.isFull = true) :
    (NodePtr.node ch f a b).isFull = true := by
  simp [NodePtr.isFull, ha, hb]

theorem isNull_of_isFull {t : NodePtr} (h : t.isFull = true) : t.isNull = false := by
  cases t with
  | null => simp [NodePtr.isFull] at h
  | node _ _ _ _ => rfl

theorem leafEntries_internal {ch : Char} {f : Int} {a b : NodePtr} (ha : a.isNull = false) :
    (NodePtr.node ch f a b).leafEntries = a.leafEntries ++ b.leafEntries := by
  simp [NodePtr.leafEntries, ha]

theorem internalCount_internal {ch : Char} {f : Int} {a b : NodePtr} (ha : a.isNull = false) :
    (NodePtr.node ch f a b).internalCount = 1 + a.internalCount + b.internalCount := by
  simp [NodePtr.internalCount, ha]

/-- A run of the merge loop on well-formed trees gives a well-formed tree with the same
leaves, and with one more inner node for each tree but one. -/
theorem huffRun_shape (l : List NodePtr) (r : NodePtr) (h : HuffRun l r) :
    (∀ t ∈ l, t.isFull = true) →
      r.isFull = true ∧ r.leafEntries.Perm (l.flatMap NodePtr.leafEntries) ∧
      r.internalCount + 1 = (l.map NodePtr.internalCount).sum + l.length := by
  induction h with
  | done t =>
    intro hl
    exact ⟨hl t (by simp), by simp, by simp⟩
  | merge l a b rest n r hperm _ _ hn _ ih =>
    intro hl
    obtain ⟨_, _, hneq⟩ := newInternal_inv hn
    have ha := hl a (hperm.symm.subset (by simp))
    have hb := hl b (hperm.symm.subset (by simp))
    have hanull := isNull_of_isFull ha
    have hl2 : ∀ t ∈ n :: rest, t.isFull = true := by
      intro t ht
      rcases List.mem_cons.mp ht with rfl | ht
      · rw [hneq]
        exact isFull_internal ha hb
      · exact hl t (hperm.symm.subset (by simp [ht]))
    obtain ⟨hfull, hlv, hcount⟩ := ih hl2
    refine ⟨hfull, ?_, ?_⟩
    · refine hlv.trans ?_
      have : (n :: rest).flatMap NodePtr.leafEntries =
          (a :: b :: rest).flatMap NodePtr.leafEntries := by
        rw [hneq]
        simp [List.flatMap_cons, leafEntries_internal hanull]
      rw [this]
      exact (hperm.flatMap_right _).symm
    · rw [hcount]
      have h1 : (l.map NodePtr.internalCount).sum =
          ((a :: b :: rest).map NodePtr.internalCount).sum := (hperm.map _).sum_eq
      have h2 : l.length = (a :: b :: rest).length := hperm.length_eq
      rw [h1, h2, hneq]
      simp only [List.map_cons, List.sum_cons, List.length_cons,
        internalCount_internal hanull]
      omega

theorem leafEntries_of_leafOf (freqMap : List (Char × Int)) :
    (freqMap.map leafOf).flatMap NodePtr.leafEntries = freqMap := by
  induction freqMap with
  | nil => rfl
  | cons p ps ih =>
    simp only [List.map_cons, List.flatMap_cons, ih]
    rfl

theorem internalCount_of_leafOf (freqMap : List (Char × Int)) :
    ((freqMap.map leafOf).map NodePtr.internalCount).sum = 0 := by
  induction freqMap with
  | nil => rfl
  | cons p ps ih =>
    simp only [List.map_cons, List.sum_cons, ih]
    rfl

/-- The tree that `buildHuffmanTree` returns is well-formed, its leaves are the entries of
the frequency map, and it has one inner node less than it has leaves. -/
theorem buildHuffmanTree_shape (hp : HeapAlgo) (freqMap : List (Char × Int))
    (hne : freqMap ≠ []) (hr : CountsInRange freqMap) :
    ∃ root, buildHuffmanTree hp freqMap = .ok root ∧ root.isFull = true ∧
      root.leafEntries.Perm freqMap ∧ root.internalCount + 1 = freqMap.length := by
  obtain ⟨root, hroot, hrun⟩ := buildHuffmanTree_run hp freqMap hne hr
  have hl : ∀ t ∈ freqMap.map leafOf, t.isFull = true := by
    intro t ht
    obtain ⟨p, _, rfl⟩ := List.mem_map.mp ht
    rfl
  obtain ⟨h1, h2, h3⟩ := huffRun_shape _ root hrun hl
  rw [leafEntries_of_leafOf] at h2
  rw [internalCount_of_leafOf, List.length_map, zero_add] at h3
  exact ⟨root, hroot, h1, h2, h3⟩

theorem isLeaf_leafEntries {t : NodePtr} (h : t.isLeaf = true) : t.leafEntries.length = 1 := by
  cases t with
  | null => simp [NodePtr.isLeaf] at h
  | node ch f l r =>
    simp only [NodePtr.isLeaf] at h
    simp [NodePtr.leafEntries, h]

theorem not_isLeaf_of_two_entries {t : NodePtr} (h : 2 ≤ t.leafEntries.length) :
    t.isLeaf = false := by
  cases hl : t.isLeaf with
  | false => rfl
  | true =>
    have := isLeaf_leafEntries hl
    omega

/-! ## Counting the iterations of the merge loop -/

/-- One more unit of fuel lets the loop run its body once more. -/
theorem mergeLoop_succ (hp : HeapAlgo) (fuel : Nat) (v : List NodePtr) (h : 1 < v.length) :
    mergeLoop hp (fuel + 1) v = (mergeBody hp v >>= mergeLoop hp fuel) := by
  rw [mergeLoop]
  simp only [gt_iff_lt, h, if_true, mergeBody, bind_assoc]
  rfl

theorem mergeLoop_done (hp : HeapAlgo) (fuel : Nat) (v : List NodePtr) (h : v.length ≤ 1) :
    mergeLoop hp fuel v = .ok v := by
  rw [mergeLoop.eq_def]
  have : ¬ v.length > 1 := by omega
  simp only [this, if_false]

/-- One iteration on a heap of at least two trees: it returns a heap with one tree less. -/
theorem mergeBody_spec (hp : HeapAlgo) (v : List NodePtr) (hheap : IsHeap v)
    (hr : InRange v) (hlen : 1 < v.length) :
    ∃ v1, mergeBody hp v = .ok v1 ∧ IsHeap v1 ∧ InRange v1 ∧ v1.length + 1 = v.length := by
  match v, hlen with
  | x :: y0 :: v0, _ =>
    obtain ⟨w1, hpop1, hperm1, hheap1⟩ := pqPop_spec hp x (y0 :: v0) hheap
    have hw1 : w1 ≠ [] := by
      intro h
      subst h
      simpa using hperm1.length_eq
    match w1, hw1 with
    | y :: v2, _ =>
      obtain ⟨w2, hpop2, hperm2, hheap2⟩ := pqPop_spec hp y v2 hheap1
      have hperm : (x :: y0 :: v0).Perm (x :: y :: w2) :=
        (hperm1.symm.trans (hperm2.symm.cons y)).cons x
      have hr2 : InRange (x :: y :: w2) := hr.perm hperm.symm
      obtain ⟨n, hn, _, hr3⟩ := newInternal_ok x y w2 hr2
      obtain ⟨hperm3, hheap3⟩ := pqPush_spec hp w2 n hheap2
      refine ⟨pqPush hp w2 n, ?_, hheap3, hr3.perm hperm3, ?_⟩
      · simp only [mergeBody, pqTop, hpop1, hpop2, hn, bind, Except.bind]
      · have h1 := hperm3.length_eq
        have h2 := hperm.length_eq
        simp only [List.length_cons] at h1 h2 ⊢
        omega

/-- With too little fuel for the size of the heap the model of the loop stops for lack of
fuel: every unit of fuel is one iteration, and an iteration removes one tree. -/
theorem mergeLoop_short (hp : HeapAlgo) (fuel : Nat) :
    ∀ v : List NodePtr, IsHeap v → InRange v → fuel + 1 < v.length →
      mergeLoop hp fuel v = .error .outOfFuel := by
  induction fuel with
  | zero =>
    intro v _ _ hlen
    rw [mergeLoop]
    simp only [gt_iff_lt, show 1 < v.length by omega, if_true]
  | succ fuel ih =>
    intro v hheap hr hlen
    obtain ⟨v1, hbody, hheap1, hr1, hlen1⟩ := mergeBody_spec hp v hheap hr (by omega)
    rw [mergeLoop_succ hp fuel v (by omega), hbody]
    exact ih v1 hheap1 hr1 (by omega)

/-- With one unit of fuel less than the heap has trees the loop ends with one tree. -/
theorem mergeLoop_exact (hp : HeapAlgo) (fuel : Nat) :
    ∀ v : List NodePtr, IsHeap v → InRange v → v.length = fuel + 1 →
      ∃ r, mergeLoop hp fuel v = .ok [r] := by
  intro v hheap hr hlen
  have hne : v ≠ [] := by
    intro h
    subst h
    simp at hlen
  obtain ⟨r, h, _⟩ := mergeLoop_run hp fuel v hheap hne (by omega) hr
  exact ⟨r, h⟩

/-- More fuel than needed does not change the result of the loop. -/
theorem mergeLoop_fuel_mono (hp : HeapAlgo) (fuel : Nat) :
    ∀ (v : List NodePtr) (res : List NodePtr), mergeLoop hp fuel v = .ok res →
      mergeLoop hp (fuel + 1) v = .ok res := by
  induction fuel with
  | zero =>
    intro v res h
    by_cases hlen : 1 < v.length
    · rw [mergeLoop] at h
      simp only [gt_iff_lt, hlen, if_true] at h
      cases h
    · rw [mergeLoop_done hp _ v (by omega)] at h
      rw [mergeLoop_done hp _ v (by omega)]
      exact h
  | succ fuel ih =>
    intro v res h
    by_cases hlen : 1 < v.length
    · rw [mergeLoop_succ hp _ v hlen] at h ⊢
      cases hb : mergeBody hp v with
      | error e => rw [hb] at h; cases h
      | ok v1 =>
        rw [hb] at h
        exact ih v1 res h
    · rw [mergeLoop_done hp _ v (by omega)] at h
      rw [mergeLoop_done hp _ v (by omega)]
      exact h

/-! ## Codes as paths -/

theorem freqIn_eq_zero {freqMap : List (Char × Int)} {c : Char}
    (h : c ∉ freqMap.map Prod.fst) : freqIn freqMap c = 0 := by
  induction freqMap with
  | nil => rfl
  | cons p ps ih =>
    obtain ⟨k, n⟩ := p
    simp only [List.map_cons, List.mem_cons, not_or] at h
    simp only [freqIn, h.1, if_false]
    exact ih h.2

/-- One step of the counting loop on a map with ascending keys and counts below `INT_MAX`:
the key is added if it is new, its count goes up by one, and nothing else changes. -/
theorem bump_spec (ch : Char) (freqMap : List (Char × Int))
    (hs : (freqMap.map Prod.fst).Pairwise (· < ·))
    (hb : ∀ p ∈ freqMap, 0 ≤ p.2 ∧ p.2 < INT_MAX) :
    ∃ fm, bump ch freqMap = .ok fm ∧ (fm.map Prod.fst).Pairwise (· < ·) ∧
      (∀ c, c ∈ fm.map Prod.fst ↔ c = ch ∨ c ∈ freqMap.map Prod.fst) ∧
      ∀ c, freqIn fm c = freqIn freqMap c + (if c = ch then 1 else 0) := by
  induction freqMap with
  | nil =>
    refine ⟨[(ch, 1)], rfl, by simp, by simp, ?_⟩
    intro c
    simp [freqIn]
  | cons p ps ih =>
    obtain ⟨k, n⟩ := p
    simp only [List.map_cons, List.pairwise_cons] at hs
    have hn := hb (k, n) (by simp)
    by_cases hck : ch = k
    · subst hck
      have hadd : addInt n 1 = .ok (n + 1) := by
        unfold addInt
        rw [if_pos]
        have h1 : INT_MIN ≤ 0 := by decide
        constructor
        · linarith [hn.1]
        · have := hn.2
          omega
      refine ⟨(ch, n + 1) :: ps, ?_, ?_, ?_, ?_⟩
      · simp only [bump, if_true, hadd]
        rfl
      · simpa using hs
      · intro c
        simp
      · intro c
        by_cases hc : c = ch
        · simp [freqIn, hc]
        · simp [freqIn, hc]
    · by_cases hlt : ch < k
      · have hnot : ch ∉ ((k, n) :: ps).map Prod.fst := by
          simp only [List.map_cons, List.mem_cons, not_or]
          refine ⟨hck, ?_⟩
          intro hmem
          exact absurd (lt_trans hlt (hs.1 ch hmem)) (lt_irrefl _)
        refine ⟨(ch, 1) :: (k, n) :: ps, ?_, ?_, ?_, ?_⟩
        · simp only [bump, hck, if_false, hlt, if_true]
        · simp only [List.map_cons, List.pairwise_cons]
          refine ⟨?_, hs⟩
          intro c hc
          rcases List.mem_cons.mp hc with rfl | hc
          · exact hlt
          · exact lt_trans hlt (hs.1 c hc)
        · intro c
          simp
        · intro c
          by_cases hc : c = ch
          · subst hc
            rw [freqIn_eq_zero hnot]
            simp [freqIn]
          · simp only [hc, if_false, add_zero]
            rw [freqIn]
            simp only [hc, if_false]
      · have hkc : k < ch := lt_of_le_of_ne (not_lt.mp hlt) (Ne.symm hck)
        obtain ⟨fm, hfm, hsorted, hkeys, hcount⟩ :=
          ih hs.2 (fun p hp => hb p (List.mem_cons_of_mem _ hp))
        refine ⟨(k, n) :: fm, ?_, ?_, ?_, ?_⟩
        · simp only [bump, hck, if_false, hlt, hfm]
          rfl
        · simp only [List.map_cons, List.pairwise_cons]
          refine ⟨?_, hsorted⟩
          intro c hc
          rcases (hkeys c).mp hc with rfl | hc
          · exact hkc
          · exact hs.1 c hc
        · intro c
          simp only [List.map_cons, List.mem_cons, hkeys c]
          tauto
        · intro c
          by_cases hc : c = k
          · subst hc
            have : ¬ c = ch := fun h => hck h.symm
            simp [freqIn, this]
          · simp only [freqIn, hc, if_false]
            exact hcount c

theorem countsOf_bound {freqMap : List (Char × Int)} {pre : List Char}
    (h : CountsOf freqMap pre) (hlen : (pre.length : Int) < INT_MAX) :
    ∀ p ∈ freqMap, 0 ≤ p.2 ∧ p.2 < INT_MAX := by
  intro p hp
  have hnd : (freqMap.map Prod.fst).Nodup := h.1.imp (fun hab => ne_of_lt hab)
  have hval := freqIn_of_mem freqMap hnd p.1 p.2 hp
  rw [h.2.2 p.1] at hval
  have hle : pre.count p.1 ≤ pre.length := List.count_le_length _ _
  rw [← hval]
  constructor
  · exact Int.natCast_nonneg _
  · have : (pre.count p.1 : Int) ≤ (pre.length : Int) := by exact_mod_cast hle
    linarith

/-- The counting loop from a state that stands for the characters `pre`: it returns, and the
map it returns stands for `pre` followed by the text. -/
theorem countLoop_spec (text : List Char) :
    ∀ (freqMap : List (Char × Int)) (pre : List Char), CountsOf freqMap pre →
      ((pre.length + text.length : Nat) : Int) ≤ INT_MAX →
      ∃ fm, text.foldlM (fun freqMap ch => bump ch freqMap) freqMap = .ok fm ∧
        CountsOf fm (pre ++ text) := by
  induction text with
  | nil =>
    intro freqMap pre h _
    exact ⟨freqMap, rfl, by simpa using h⟩
  | cons ch rest ih =>
    intro freqMap pre h hlen
    simp only [List.length_cons] at hlen
    have hpre : (pre.length : Int) < INT_MAX := by
      push_cast at hlen
      have : (0 : Int) ≤ (rest.length : Int) := Int.natCast_nonneg _
      linarith
    obtain ⟨fm1, hfm1, hsorted, hkeys, hcount⟩ :=
      bump_spec ch freqMap h.1 (countsOf_bound h hpre)
    have h1 : CountsOf fm1 (pre ++ [ch]) := by
      refine ⟨hsorted, ?_, ?_⟩
      · intro c
        rw [hkeys c, h.2.1 c]
        simp only [List.mem_append, List.mem_singleton]
        exact or_comm
      · intro c
        rw [hcount c, h.2.2 c, List.count_append]
        by_cases hc : c = ch
        · subst hc
          simp
        · have hc2 : ¬ ch = c := fun h => hc h.symm
          simp [hc, List.count_cons, hc2]
    obtain ⟨fm, hfm, hfinal⟩ := ih fm1 (pre ++ [ch]) h1 (by
      simp only [List.length_append, List.length_singleton]
      have : pre.length + 1 + rest.length = pre.length + (rest.length + 1) := by omega
      rw [this]
      exact hlen)
    refine ⟨fm, ?_, ?_⟩
    · simp only [List.foldlM, hfm1, bind, Except.bind]
      exact hfm
    · simpa using hfinal

/-- The frequency map of a text of at most `INT_MAX` characters. -/
theorem countFreq_spec (text : List Char) (hlen : (text.length : Int) ≤ INT_MAX) :
    ∃ fm, countFreq text = .ok fm ∧ CountsOf fm text := by
  have h0 : CountsOf [] [] := ⟨by simp, by simp, by intro c; simp [freqIn]⟩
  obtain ⟨fm, h1, h2⟩ := countLoop_spec text [] [] h0 (by simpa using hlen)
  exact ⟨fm, h1, by simpa using h2⟩

/-! ## The runs on the table of "aabbbcc" -/

/-- The last merge of a run: the tree of smaller `freq` becomes the left child. -/
theorem huffRun_pair_inv_min {x y r : NodePtr} (h : HuffRun [x, y] r) :
    (newInternal x y = .ok r ∧ x.freqOf ≤ y.freqOf) ∨
      (newInternal y x = .ok r ∧ y.freqOf ≤ x.freqOf) := by
  cases h with
  | merge _ a b rest n r h1 hamin _ h4 h5 =>
    have hlen := h1.length_eq
    have hrest : rest = [] := by
      cases rest with
      | nil => rfl
      | cons _ _ => simp at hlen
    subst hrest
    have hn := huffRun_single_inv h5
    subst hn
    have hab := hamin b (by simp)
    have he := h1.erase a
    rw [List.erase_cons_head] at he
    by_cases hxa : x = a
    · subst hxa
      rw [List.erase_cons_head] at he
      have hyb : y = b := by
        have := List.perm_singleton.mp he.symm
        simpa using this.symm
      subst hyb
      exact Or.inl ⟨h4, hab⟩
    · have hya : y = a := by
        have : a ∈ [x, y] := h1.symm.subset (by simp)
        simp only [List.mem_cons, List.mem_singleton, List.mem_nil_iff, or_false] at this
        rcases this with h | h
        · exact absurd h.symm hxa
        · exact h.symm
      subst hya
      have hxb : x = b := by
        have hx : x ∈ [y, b] := h1.subset (by simp)
        simp only [List.mem_cons, List.mem_singleton, List.mem_nil_iff, or_false] at hx
        rcases hx with h | h
        · exact absurd h hxa
        · exact h
      subst hxb
      exact Or.inr ⟨h4, hab⟩

/-- Whatever the heap does with the tie between a and c, the tree built for the counts
a 2, b 3, c 2 is one of two: b on the left of the root, and a and c, in one order or the
other, below its right child. -/
theorem huffRun_abc {r : NodePtr}
    (h : HuffRun [leafOf ('a', 2), leafOf ('b', 3), leafOf ('c', 2)] r) :
    r = sampleTree ∨ r = sampleTreeSwapped := by
  cases h with
  | merge _ a b rest n r h1 hamin hbmin h4 h5 =>
    have he := h1.erase a
    rw [List.erase_cons_head] at he
    have ha : a ∈ [leafOf ('a', 2), leafOf ('b', 3), leafOf ('c', 2)] :=
      h1.symm.subset (by simp)
    simp only [List.mem_cons, List.mem_singleton, List.mem_nil_iff, or_false] at ha
    rcases ha with rfl | rfl | rfl
    · -- the first tree taken out is the leaf a
      have he2 : [leafOf ('b', 3), leafOf ('c', 2)].Perm (b :: rest) := he
      have he3 := he2.erase b
      rw [List.erase_cons_head] at he3
      have hb : b ∈ [leafOf ('b', 3), leafOf ('c', 2)] := he2.symm.subset (by simp)
      simp only [List.mem_cons, List.mem_singleton, List.mem_nil_iff, or_false] at hb
      rcases hb with rfl | rfl
      · have hrest : rest = [leafOf ('c', 2)] := List.perm_singleton.mp he3.symm
        subst hrest
        have := hbmin (leafOf ('c', 2)) (by simp)
        exact absurd this (by decide)
      · have hrest : rest = [leafOf ('b', 3)] := List.perm_singleton.mp he3.symm
        subst hrest
        have hn : n = .node (Char.ofNat 0) 4 (leafOf ('a', 2)) (leafOf ('c', 2)) := by
          have : newInternal (leafOf ('a', 2)) (leafOf ('c', 2)) =
              .ok (.node (Char.ofNat 0) 4 (leafOf ('a', 2)) (leafOf ('c', 2))) := rfl
          rw [this] at h4
          exact (Except.ok.inj h4).symm
        subst hn
        rcases huffRun_pair_inv_min h5 with ⟨_, hle⟩ | ⟨hr, _⟩
        · exact absurd hle (by decide)
        · left
          have : newInternal (leafOf ('b', 3))
              (.node (Char.ofNat 0) 4 (leafOf ('a', 2)) (leafOf ('c', 2))) = .ok sampleTree := rfl
          rw [this] at hr
          exact (Except.ok.inj hr).symm
    · -- the leaf b is not of least count
      have hmem : leafOf ('a', 2) ∈ b :: rest := he.subset (by decide)
      have := hamin _ hmem
      exact absurd this (by decide)
    · -- the first tree taken out is the leaf c
      have he2 : [leafOf ('a', 2), leafOf ('b', 3)].Perm (b :: rest) := he
      have he3 := he2.erase b
      rw [List.erase_cons_head] at he3
      have hb : b ∈ [leafOf ('a', 2), leafOf ('b', 3)] := he2.symm.subset (by simp)
      simp only [List.mem_cons, List.mem_singleton, List.mem_nil_iff, or_false] at hb
      rcases hb with rfl | rfl
      · have hrest : rest = [leafOf ('b', 3)] := List.perm_singleton.mp he3.symm
        subst hrest
        have hn : n = .node (Char.ofNat 0) 4 (leafOf ('c', 2)) (leafOf ('a', 2)) := by
          have : newInternal (leafOf ('c', 2)) (leafOf ('a', 2)) =
              .ok (.node (Char.ofNat 0) 4 (leafOf ('c', 2)) (leafOf ('a', 2))) := rfl
          rw [this] at h4
          exact (Except.ok.inj h4).symm
        subst hn
        rcases huffRun_pair_inv_min h5 with ⟨_, hle⟩ | ⟨hr, _⟩
        · exact absurd hle (by decide)
        · right
          have : newInternal (leafOf ('b', 3))
              (.node (Char.ofNat 0) 4 (leafOf ('c', 2)) (leafOf ('a', 2))) =
                .ok sampleTreeSwapped := rfl
          rw [this] at hr
          exact (Except.ok.inj hr).symm
      · have hrest : rest = [leafOf ('a', 2)] := List.perm_singleton.mp he3.symm
        subst hrest
        have := hbmin (leafOf ('a', 2)) (by simp)
        exact absurd this (by decide)

theorem buildHuffmanTree_abc (hp : HeapAlgo) :
    buildHuffmanTree hp [('a', 2), ('b', 3), ('c', 2)] = .ok sampleTree ∨
      buildHuffmanTree hp [('a', 2), ('b', 3), ('c', 2)] = .ok sampleTreeSwapped := by
  obtain ⟨r, hr, hrun⟩ := buildHuffmanTree_run hp [('a', 2), ('b', 3), ('c', 2)] (by decide)
    (by decide)
  rcases huffRun_abc hrun with h | h
  · left; rw [hr, h]
  · right; rw [hr, h]

/-! ## Decoding what was encoded -/

theorem encode_eq_flatMap (text : List Char) (m : CodeMap) :
    encode text m = text.flatMap (lookupCode m) := by
  have key : ∀ (l : List Char) (acc : List Char),
      l.foldl (fun encodedString ch => encodedString ++ lookupCode m ch) acc =
        acc ++ l.flatMap (lookupCode m) := by
    intro l
    induction l with
    | nil => intro acc; simp
    | cons x xs ih =>
      intro acc
      simp only [List.foldl_cons, List.flatMap_cons]
      rw [ih, List.append_assoc]
  simpa [encode] using key text []

theorem codeOf_of_leaf {ch : Char} {f : Int} {l r : NodePtr}
    (hleaf : (l.isNull && r.isNull) = true) {c : Char} {q : List Char}
    (h : (NodePtr.node ch f l r).codeOf c = some q) : q = [] ∧ c = ch := by
  obtain ⟨h1, h2⟩ := codeOf_null_children hleaf c
  simp only [NodePtr.codeOf, h1, h2] at h
  split at h
  · rename_i hc
    simp only [Option.some.injEq] at h
    exact ⟨h.symm, hc.2⟩
  · cases h

/-- One decoding step into a child `next` that is a real node: a leaf is emitted and the
walk restarts at the root, an inner node becomes the current node. -/
theorem decodeLoop_step (root : NodePtr) (ch : Char) (f : Int) (l r : NodePtr) (bit : Char)
    (acc rest : List Char) (ch2 : Char) (f2 : Int) (l2 r2 : NodePtr)
    (hnext : (if bit = '0' then l else r) = .node ch2 f2 l2 r2) :
    decodeLoop root (.node ch f l r) acc (bit :: rest) =
      if (l2.isNull && r2.isNull) = true then decodeLoop root root (acc ++ [ch2]) rest
      else decodeLoop root (.node ch2 f2 l2 r2) acc rest := by
  simp only [decodeLoop, hnext]

/-- From an inner node of a well-formed tree, the code of a symbol below it leads the loop
of `decode` to the leaf of the symbol: the symbol is emitted and the walk is back at the
root. -/
theorem decodeLoop_code (root : NodePtr) (t : NodePtr) :
    t.isFull = true → t.isLeaf = false →
      ∀ (c : Char) (p : List Char), t.codeOf c = some p →
        ∀ acc rest, decodeLoop root t acc (p ++ rest) =
          decodeLoop root root (acc ++ [c]) rest := by
  induction t with
  | null =>
    intro hf
    simp [NodePtr.isFull] at hf
  | node ch f l r ihl ihr =>
    intro hf hl c p hcode acc rest
    obtain ⟨hlf, hrf⟩ := isFull_children hf hl
    simp only [NodePtr.codeOf] at hcode
    cases hr : r.codeOf c with
    | some q =>
      rw [hr] at hcode
      simp only [Option.some.injEq] at hcode
      subst hcode
      cases r with
      | null => simp [NodePtr.isFull] at hrf
      | node ch2 f2 l2 r2 =>
        rw [List.cons_append, decodeLoop_step root ch f l _ '1' acc (q ++ rest) ch2 f2 l2 r2
          (by simp)]
        by_cases hleaf : (l2.isNull && r2.isNull) = true
        · obtain ⟨hq, hc⟩ := codeOf_of_leaf hleaf hr
          subst hq
          subst hc
          simp [hleaf]
        · rw [if_neg hleaf]
          exact ihr hrf (by simpa [NodePtr.isLeaf] using hleaf) c q hr acc rest
    | none =>
      rw [hr] at hcode
      cases hlc : l.codeOf c with
      | some q =>
        rw [hlc] at hcode
        simp only [Option.some.injEq] at hcode
        subst hcode
        cases l with
        | null => simp [NodePtr.isFull] at hlf
        | node ch2 f2 l2 r2 =>
          rw [List.cons_append, decodeLoop_step root ch f _ r '0' acc (q ++ rest) ch2 f2 l2 r2
            (by simp)]
          by_cases hleaf : (l2.isNull && r2.isNull) = true
          · obtain ⟨hq, hc⟩ := codeOf_of_leaf hleaf hlc
            subst hq
            subst hc
            simp [hleaf]
          · rw [if_neg hleaf]
            exact ihl hlf (by simpa [NodePtr.isLeaf] using hleaf) c q hlc acc rest
      | none =>
        rw [hlc] at hcode
        simp only at hcode
        split at hcode
        · rename_i hleaf
          simp only [NodePtr.isLeaf] at hl
          rw [hl] at hleaf
          exact absurd hleaf.1 (by simp)
        · cases hcode

/-- On a well-formed tree with at least two leaves, decoding the codes of a text whose
characters are all leaves of the tree gives the text back, and the walk ends at the root. -/
theorem decodeLoop_encode (root : NodePtr) (hf : root.isFull = true)
    (hl : root.isLeaf = false) (text : List Char) (htext : ∀ c ∈ text, c ∈ root.leaves) :
    ∀ acc, decodeLoop root root acc
        (text.flatMap (lookupCode (generateCodes root [] emptyCodes))) =
      .ok (root, acc ++ text) := by
  induction text with
  | nil =>
    intro acc
    simp [decodeLoop]
  | cons c cs ih =>
    intro acc
    have hc : c ∈ root.leaves := htext c (by simp)
    have hsome := (codeOf_isSome_iff root c).mpr hc
    cases hcode : root.codeOf c with
    | none => rw [hcode] at hsome; cases hsome
    | some p =>
      have hlook : lookupCode (generateCodes root [] emptyCodes) c = p := by
        simp [lookupCode, generateCodes_root, hcode]
      rw [List.flatMap_cons, hlook, decodeLoop_code root root hf hl c p hcode acc _,
        ih (fun x hx => htext x (by simp [hx])) (acc ++ [c])]
      simp

theorem sum_count_eq_length (text : List Char) :
    ∀ keys : List Char, keys.Nodup → (∀ c ∈ text, c ∈ keys) →
      (keys.map (fun c => (text.count c : Int))).sum = (text.length : Int) := by
  induction text with
  | nil =>
    intro keys _ _
    simp
  | cons x xs ih =>
    intro keys hnd hall
    have hx : x ∈ keys := hall x (by simp)
    have h1 : ∀ c, ((x :: xs).count c : Int) = (xs.count c : Int) + (if c = x then 1 else 0) := by
      intro c
      rw [List.count_cons]
      by_cases hc : c = x
      · subst hc
        simp
      · have : ¬ x = c := fun h => hc h.symm
        simp [hc, this]
    have h2 : (keys.map (fun c => ((x :: xs).count c : Int))) =
        keys.map (fun c => (xs.count c : Int) + (if c = x then 1 else 0)) :=
      List.map_congr_left (fun c _ => h1 c)
    rw [h2, List.sum_map_add, ih keys hnd (fun c hc => hall c (by simp [hc]))]
    have h3 : (keys.map (fun c => if c = x then (1 : Int) else 0)).sum = 1 := by
      clear h2 hall ih h1
      induction keys with
      | nil => simp at hx
      | cons k ks ihk =>
        simp only [List.nodup_cons] at hnd
        simp only [List.map_cons, List.sum_cons]
        by_cases hk : k = x
        · subst hk
          have hz : (ks.map (fun c => if c = k then (1 : Int) else 0)).sum = 0 := by
            apply List.sum_eq_zero
            intro v hv
            obtain ⟨c, hc, rfl⟩ := List.mem_map.mp hv
            have : c ≠ k := fun h => hnd.1 (h ▸ hc)
            simp [this]
          simp [hz]
        · have hx2 : x ∈ ks := by
            rcases List.mem_cons.mp hx with h | h
            · exact absurd h.symm hk
            · exact h
          simp [hk, ihk hnd.2 hx2]
    rw [h3]
    simp

/-- The frequency map of a text has counts that the program can add up: they are
non-negative and their total is the length of the text. -/
theorem countsInRange_of_countsOf {fm : List (Char × Int)} {text : List Char}
    (h : CountsOf fm text) (hlen : (text.length : Int) ≤ INT_MAX) : CountsInRange fm := by
  have hnd : (fm.map Prod.fst).Nodup := h.1.imp (fun hab => ne_of_lt hab)
  have hval : ∀ p ∈ fm, p.2 = (text.count p.1 : Int) := by
    intro p hp
    rw [← freqIn_of_mem fm hnd p.1 p.2 hp]
    exact h.2.2 p.1
  constructor
  · intro p hp
    rw [hval p hp]
    exact Int.natCast_nonneg _
  · have h1 : fm.map Prod.snd = (fm.map Prod.fst).map (fun c => (text.count c : Int)) := by
      rw [List.map_map]
      exact List.map_congr_left hval
    rw [h1, sum_count_eq_length text _ hnd (fun c hc => (h.2.1 c).mpr hc)]
    exact hlen

/-! ## The value of the packed bytes -/

theorem expandBytes_length (bytes : List Nat) : (expandBytes bytes).length = 8 * bytes.length := by
  induction bytes with
  | nil => rfl
  | cons b bs ih =>
    rw [expandBytes_cons, List.length_append, ih]
    simp only [bitsetToString, List.length_map, List.length_cons, List.length_nil]
    omega

theorem byte_value (c0 c1 c2 c3 c4 c5 c6 c7 : Char)
    (h0 : c0 = '0' ∨ c0 = '1') (h1 : c1 = '0' ∨ c1 = '1') (h2 : c2 = '0' ∨ c2 = '1')
    (h3 : c3 = '0' ∨ c3 = '1') (h4 : c4 = '0' ∨ c4 = '1') (h5 : c5 = '0' ∨ c5 = '1')
    (h6 : c6 = '0' ∨ c6 = '1') (h7 : c7 = '0' ∨ c7 = '1') :
    ∃ v, bitsetOfString [c0, c1, c2, c3, c4, c5, c6, c7] = .ok v ∧
      v % 256 = 128 * bitVal c0 + 64 * bitVal c1 + 32 * bitVal c2 + 16 * bitVal c3 +
        8 * bitVal c4 + 4 * bitVal c5 + 2 * bitVal c6 + bitVal c7 := by
  rcases h0 with rfl | rfl <;> rcases h1 with rfl | rfl <;> rcases h2 with rfl | rfl <;>
    rcases h3 with rfl | rfl <;> rcases h4 with rfl | rfl <;> rcases h5 with rfl | rfl <;>
    rcases h6 with rfl | rfl <;> rcases h7 with rfl | rfl <;> exact ⟨_, rfl, rfl⟩

theorem msbByte_shift (c0 c1 c2 c3 c4 c5 c6 c7 : Char) (rest : List Char) (j : Nat) :
    msbByte (c0 :: c1 :: c2 :: c3 :: c4 :: c5 :: c6 :: c7 :: rest) (j + 1) = msbByte rest j := by
  have e0 : 8 * (j + 1) = 8 * j + 8 := by omega
  have e1 : 8 * j + 8 + 1 = 8 * j + 1 + 8 := by omega
  have e2 : 8 * j + 8 + 2 = 8 * j + 2 + 8 := by omega
  have e3 : 8 * j + 8 + 3 = 8 * j + 3 + 8 := by omega
  have e4 : 8 * j + 8 + 4 = 8 * j + 4 + 8 := by omega
  have e5 : 8 * j + 8 + 5 = 8 * j + 5 + 8 := by omega
  have e6 : 8 * j + 8 + 6 = 8 * j + 6 + 8 := by omega
  have e7 : 8 * j + 8 + 7 = 8 * j + 7 + 8 := by omega
  unfold msbByte
  rw [e0, e1, e2, e3, e4, e5, e6, e7]
  rfl

/-- Every byte that the packing loop produces from a string of binary digits whose length is
a multiple of 8 has the value of its block of eight digits, most significant bit first. -/
theorem packLoop_values (s : List Char) (hs : IsBits s) (h8 : s.length % 8 = 0) :
    ∃ payload, packLoop s = .ok payload ∧ payload.length = s.length / 8 ∧
      ∀ i, i < payload.length → payload.getD i 0 = msbByte s i := by
  induction s using packLoop.induct with
  | case1 => exact ⟨[], rfl, rfl, by intro i hi; simp at hi⟩
  | case2 c0 c1 c2 c3 c4 c5 c6 c7 rest ih =>
    have hr : IsBits rest := fun x hx => hs x (by simp [hx])
    have hlen : rest.length % 8 = 0 := by
      simp only [List.length_cons] at h8
      omega
    obtain ⟨v, hv, hval⟩ := byte_value c0 c1 c2 c3 c4 c5 c6 c7
      (hs c0 (by simp)) (hs c1 (by simp)) (hs c2 (by simp)) (hs c3 (by simp))
      (hs c4 (by simp)) (hs c5 (by simp)) (hs c6 (by simp)) (hs c7 (by simp))
    obtain ⟨more, hm, hml, hmv⟩ := ih hr hlen
    refine ⟨v % 256 :: more, ?_, ?_, ?_⟩
    · simp [packLoop, hv, hm]
      rfl
    · simp only [List.length_cons, hml]
      omega
    · intro i hi
      cases i with
      | zero =>
        rw [List.getD_cons_zero, hval]
        rfl
      | succ j =>
        rw [List.getD_cons_succ, msbByte_shift]
        exact hmv j (by simpa using hi)
  | case3 block hne hshort =>
    exfalso
    rcases block with _ | ⟨a0, _ | ⟨a1, _ | ⟨a2, _ | ⟨a3, _ | ⟨a4, _ | ⟨a5, _ | ⟨a6, _ | ⟨a7, r⟩⟩⟩⟩⟩⟩⟩⟩
    all_goals first
      | exact hne rfl
      | exact hshort _ _ _ _ _ _ _ _ _ rfl
      | simp at h8

/-! ## Code words and what `decode` returns for them -/

theorem follow_nil (t : NodePtr) : t.follow [] = t := by
  cases t <;> rfl

theorem follow_null (bs : List Char) : NodePtr.null.follow bs = .null := by
  cases bs <;> rfl

theorem follow_append (t : NodePtr) (p q : List Char) :
    t.follow (p ++ q) = (t.follow p).follow q := by
  induction p generalizing t with
  | nil => rw [List.nil_append, follow_nil]
  | cons b bs ih =>
    cases t with
    | null => simp [NodePtr.follow, follow_null]
    | node ch f l r =>
      rw [List.cons_append]
      simp only [NodePtr.follow]
      exact ih _

theorem leaf_shape {t : NodePtr} (h : t.isLeaf = true) :
    ∃ c f, t = .node c f .null .null := by
  cases t with
  | null => simp [NodePtr.isLeaf] at h
  | node c f l r =>
    simp only [NodePtr.isLeaf, Bool.and_eq_true] at h
    cases l with
    | node _ _ _ _ => simp [NodePtr.isNull] at h
    | null =>
      cases r with
      | node _ _ _ _ => simp [NodePtr.isNull] at h
      | null => exact ⟨c, f, rfl⟩

/-- Following a non-empty code from a leaf falls off the tree. -/
theorem follow_leaf_cons (c : Char) (f : Int) (b : Char) (bs : List Char) :
    (NodePtr.node c f .null .null).follow (b :: bs) = .null := by
  simp only [NodePtr.follow]
  split <;> exact follow_null bs

/-- From an inner node of a well-formed tree, a code that ends on the leaf labelled `c` makes
the loop of `decode` emit `c` and go back to the root. -/
theorem decodeLoop_word (root : NodePtr) (w : List Char) :
    ∀ (cur : NodePtr), cur.isFull = true → cur.isLeaf = false →
      ∀ (c : Char) (f : Int), cur.follow w = .node c f .null .null →
        ∀ acc rest, decodeLoop root cur acc (w ++ rest) =
          decodeLoop root root (acc ++ [c]) rest := by
  induction w with
  | nil =>
    intro cur _ hl c f hw
    rw [follow_nil] at hw
    rw [hw] at hl
    simp [NodePtr.isLeaf, NodePtr.isNull] at hl
  | cons b bs ih =>
    intro cur hf hl c f hw acc rest
    cases cur with
    | null => simp [NodePtr.isFull] at hf
    | node ch g l r =>
      obtain ⟨hlf, hrf⟩ := isFull_children hf hl
      have hnf : (if b = '0' then l else r).isFull = true := by
        split <;> assumption
      simp only [NodePtr.follow] at hw
      cases hnext : (if b = '0' then l else r) with
      | null => rw [hnext] at hnf; simp [NodePtr.isFull] at hnf
      | node ch2 f2 l2 r2 =>
        rw [hnext] at hw hnf
        rw [List.cons_append, decodeLoop_step root ch g l r b acc (bs ++ rest) ch2 f2 l2 r2 hnext]
        by_cases hleaf : (l2.isNull && r2.isNull) = true
        · rw [if_pos hleaf]
          obtain ⟨c3, f3, hshape⟩ :=
            leaf_shape (t := .node ch2 f2 l2 r2) (by simpa [NodePtr.isLeaf] using hleaf)
          rw [hshape] at hw
          cases bs with
          | nil =>
            rw [follow_nil] at hw
            simp only [NodePtr.node.injEq] at hshape hw
            obtain ⟨h1, _⟩ := hshape
            obtain ⟨h2, _⟩ := hw
            rw [h1, h2]
            rfl
          | cons b2 bs2 =>
            rw [follow_leaf_cons] at hw
            cases hw
        · rw [if_neg hleaf]
          exact ih _ hnf (by simpa [NodePtr.isLeaf] using hleaf) c f hw acc rest

/-- From an inner node of a well-formed tree, bits that end on an inner node make the loop of
`decode` stop there and emit nothing. -/
theorem decodeLoop_partial (root : NodePtr) (tail : List Char) :
    ∀ (cur : NodePtr), cur.isFull = true → cur.isLeaf = false →
      (cur.follow tail).isFull = true → (cur.follow tail).isLeaf = false →
        ∀ acc, decodeLoop root cur acc tail = .ok (cur.follow tail, acc) := by
  induction tail with
  | nil =>
    intro cur _ _ _ _ acc
    rw [follow_nil]
    rfl
  | cons b bs ih =>
    intro cur hf hl htf htl acc
    cases cur with
    | null => simp [NodePtr.isFull] at hf
    | node ch g l r =>
      obtain ⟨hlf, hrf⟩ := isFull_children hf hl
      have hnf : (if b = '0' then l else r).isFull = true := by
        split <;> assumption
      simp only [NodePtr.follow] at htf htl ⊢
      cases hnext : (if b = '0' then l else r) with
      | null => rw [hnext] at hnf; simp [NodePtr.isFull] at hnf
      | node ch2 f2 l2 r2 =>
        rw [hnext] at htf htl hnf
        rw [decodeLoop_step root ch g l r b acc bs ch2 f2 l2 r2 hnext]
        by_cases hleaf : (l2.isNull && r2.isNull) = true
        · exfalso
          obtain ⟨c3, f3, hshape⟩ :=
            leaf_shape (t := .node ch2 f2 l2 r2) (by simpa [NodePtr.isLeaf] using hleaf)
          rw [hshape] at htf htl
          cases bs with
          | nil => simp [follow_nil, NodePtr.isLeaf, NodePtr.isNull] at htl
          | cons b2 bs2 =>
            rw [follow_leaf_cons] at htf
            simp [NodePtr.isFull] at htf
        · rw [if_neg hleaf]
          exact ih _ hnf (by simpa [NodePtr.isLeaf] using hleaf) htf htl acc

/-- Complete code words followed by bits that end on an inner node: the loop of `decode`
emits the symbols of the leaves of the code words, one for each word and in their order,
and nothing for the rest. -/
theorem decodeLoop_words (root : NodePtr) (hf : root.isFull = true)
    (hl : root.isLeaf = false) (tail : List Char)
    (htf : (root.follow tail).isFull = true) (htl : (root.follow tail).isLeaf = false)
    (words : List (List Char)) (out : List Char)
    (hw : List.Forall₂ (fun w c => ∃ f, root.follow w = .node c f .null .null) words out) :
    ∀ acc, decodeLoop root root acc (words.flatten ++ tail) =
      .ok (root.follow tail, acc ++ out) := by
  induction hw with
  | nil =>
    intro acc
    simpa using decodeLoop_partial root tail root hf hl htf htl acc
  | cons hhead _ ih =>
    intro acc
    obtain ⟨f, hfw⟩ := hhead
    rw [List.flatten_cons, List.append_assoc,
      decodeLoop_word root _ root hf hl _ f hfw acc _, ih]
    simp

/-- Every bit sequence that starts after the partial code `p0` from the root of a well-formed
tree splits into complete code words and a rest that ends on an inner node. -/
theorem split_words (root : NodePtr) (hf : root.isFull = true) (hl : root.isLeaf = false)
    (bits : List Char) :
    ∀ p0 : List Char, (root.follow p0).isFull = true → (root.follow p0).isLeaf = false →
      ∃ (words : List (List Char)) (out : List Char) (tail : List Char),
        p0 ++ bits = words.flatten ++ tail ∧
        List.Forall₂ (fun w c => ∃ f, root.follow w = .node c f .null .null) words out ∧
        (root.follow tail).isFull = true ∧ (root.follow tail).isLeaf = false := by
  induction bits with
  | nil =>
    intro p0 h1 h2
    exact ⟨[], [], p0, by simp, List.Forall₂.nil, h1, h2⟩
  | cons b bs ih =>
    intro p0 h1 h2
    have hstep : root.follow (p0 ++ [b]) = (root.follow p0).follow [b] := follow_append _ _ _
    cases hcur : root.follow p0 with
    | null => rw [hcur] at h1; simp [NodePtr.isFull] at h1
    | node ch g l r =>
      rw [hcur] at h1 h2 hstep
      obtain ⟨hlf, hrf⟩ := isFull_children h1 h2
      have hnf : (root.follow (p0 ++ [b])).isFull = true := by
        rw [hstep]
        simp only [NodePtr.follow]
        split <;> assumption
      by_cases hleaf : (root.follow (p0 ++ [b])).isLeaf = true
      · obtain ⟨c3, f3, hshape⟩ := leaf_shape hleaf
        obtain ⟨words, out, tail, hsplit, hall, ht1, ht2⟩ :=
          ih [] (by rw [follow_nil]; exact hf) (by rw [follow_nil]; exact hl)
        refine ⟨(p0 ++ [b]) :: words, c3 :: out, tail, ?_, ?_, ht1, ht2⟩
        · rw [List.flatten_cons, List.append_assoc, ← hsplit]
          simp
        · exact List.Forall₂.cons ⟨f3, hshape⟩ hall
      · obtain ⟨words, out, tail, hsplit, hall, ht1, ht2⟩ :=
          ih (p0 ++ [b]) hnf (by simpa using hleaf)
        refine ⟨words, out, tail, ?_, hall, ht1, ht2⟩
        rw [← hsplit]
        simp

/-! # The claims -/

/-- Claim C1, evaluated on the input "ab": whatever the heap does with the tie, the text that
`main` writes to `output.txt` has sixteen characters instead of the two of the input.
`readBinaryFile` takes the first character of the eight-character header as the pad count
(48) and decodes the other seven header characters as if they were payload. -/
theorem mainRun_ab_not_roundtrip (hp : HeapAlgo) :
    mainRun hp ['a', 'b'] =
        .ok ['a', 'a', 'b', 'b', 'a', 'a', 'a', 'a', 'a', 'a', 'b', 'b', 'a', 'a', 'a', 'a'] ∨
      mainRun hp ['a', 'b'] =
        .ok ['b', 'b', 'a', 'a', 'b', 'b', 'b', 'b', 'b', 'b', 'a', 'a', 'b', 'b', 'b', 'b'] := by
  have hc : countFreq ['a', 'b'] = .ok [('a', 1), ('b', 1)] := rfl
  rcases buildHuffmanTree_ab hp with h | h
  · left
    simp only [mainRun, compress, hc]
    show ((buildHuffmanTree hp [('a', 1), ('b', 1)] >>= _) >>= _) = _
    rw [h]
    rfl
  · right
    simp only [mainRun, compress, hc]
    show ((buildHuffmanTree hp [('a', 1), ('b', 1)] >>= _) >>= _) = _
    rw [h]
    rfl

/-- Claim C2: for every non-empty frequency table (with counts the program can add up),
`buildHuffmanTree` returns a tree, and in the code table that `generateCodes` produces from
it the codes of two distinct symbols are never a beginning of one another, whatever the heap
does among equal frequencies. -/
theorem codes_prefix_free (hp : HeapAlgo) (freqMap : List (Char × Int))
    (hne : freqMap ≠ []) (hr : CountsInRange freqMap) :
    ∃ root, buildHuffmanTree hp freqMap = .ok root ∧
      ∀ (c1 c2 : Char) (x y : List Char), c1 ≠ c2 →
        generateCodes root [] emptyCodes c1 = some x →
        generateCodes root [] emptyCodes c2 = some y →
        ¬ x <+: y ∧ ¬ y <+: x := by
  obtain ⟨root, hroot, _⟩ := buildHuffmanTree_run hp freqMap hne hr
  refine ⟨root, hroot, ?_⟩
  intro c1 c2 x y hne12 h1 h2
  rw [generateCodes_root] at h1 h2
  exact ⟨fun h => hne12 (codeOf_comparable root c1 c2 x y h1 h2 h),
    fun h => hne12 (codeOf_comparable root c2 c1 y x h2 h1 h).symm⟩

/-- Witness for C2 on the table a 2, b 3, c 2. -/
theorem codes_prefix_free_witness :
    ∃ root, buildHuffmanTree sortingHeap [('a', 2), ('b', 3), ('c', 2)] = .ok root ∧
      ∀ (c1 c2 : Char) (x y : List Char), c1 ≠ c2 →
        generateCodes root [] emptyCodes c1 = some x →
        generateCodes root [] emptyCodes c2 = some y →
        ¬ x <+: y ∧ ¬ y <+: x :=
  codes_prefix_free sortingHeap [('a', 2), ('b', 3), ('c', 2)] (by decide) (by decide)

/-- Claim C3, evaluated on the input "aaaa": the tree is one leaf, its code is the empty
string, `encode` gives the empty bit string and `decode` returns the empty text instead of
"aaaa"; through the file, `decode` receives sixteen bits and follows the null child of the
leaf. -/
theorem codecRun_single_symbol_loses_text (hp : HeapAlgo) :
    codecRun hp ['a', 'a', 'a', 'a'] = .ok [] ∧
      mainRun hp ['a', 'a', 'a', 'a'] = .error .nullDeref := by
  have hc : countFreq ['a', 'a', 'a', 'a'] = .ok [('a', 4)] := rfl
  constructor
  · simp only [codecRun, hc]
    show (buildHuffmanTree hp [('a', 4)] >>= _) = _
    rw [buildHuffmanTree_single]
    rfl
  · simp only [mainRun, compress, hc]
    show ((buildHuffmanTree hp [('a', 4)] >>= _) >>= _) = _
    rw [buildHuffmanTree_single]
    rfl

/-- Claim C4 fails as stated: on the tree with leaves b, a, c built for "aabbbcc" the bits 0 1
end on an inner node below the root, and `decode` returns the text "b" decoded so far; it
has no way to report a failure. -/
theorem decode_midpath_counterexample :
    decodeLoop sampleTree sampleTree [] ['0', '1'] =
      .ok (.node (Char.ofNat 0) 4 (.node 'a' 2 .null .null) (.node 'c' 2 .null .null), ['b']) ∧
    NodePtr.node (Char.ofNat 0) 4 (.node 'a' 2 .null .null) (.node 'c' 2 .null .null)
      ≠ sampleTree ∧
    decode sampleTree ['0', '1'] = .ok ['b'] :=
  ⟨rfl, by decide, rfl⟩

/-- Claim C4 as amended: on every well-formed tree with at least two leaves, `decode` returns
a text and never a failure.  Whenever the bits are complete code words (each one the path
from the root to a leaf, 0 to the left and 1 to the right) followed by a rest that ends on an
inner node, `decode` returns exactly the symbols of the leaves of those code words, one for
each word and in their order, and the rest, the unfinished code word of a walk that ends
mid-path, contributes nothing; and every bit sequence is of that form. -/
theorem decode_midpath_returns_output (root : NodePtr) (hf : root.isFull = true)
    (hl : root.isLeaf = false) :
    (∀ (words : List (List Char)) (out : List Char) (tail : List Char),
      List.Forall₂ (fun w c => ∃ f, root.follow w = .node c f .null .null) words out →
      (root.follow tail).isFull = true → (root.follow tail).isLeaf = false →
        decode root (words.flatten ++ tail) = .ok out ∧
        decodeLoop root root [] (words.flatten ++ tail) = .ok (root.follow tail, out)) ∧
    (∀ bits : List Char,
      ∃ (words : List (List Char)) (out : List Char) (tail : List Char),
        bits = words.flatten ++ tail ∧
        List.Forall₂ (fun w c => ∃ f, root.follow w = .node c f .null .null) words out ∧
        (root.follow tail).isFull = true ∧ (root.follow tail).isLeaf = false ∧
        decode root bits = .ok out) := by
  have key : ∀ (words : List (List Char)) (out : List Char) (tail : List Char),
      List.Forall₂ (fun w c => ∃ f, root.follow w = .node c f .null .null) words out →
      (root.follow tail).isFull = true → (root.follow tail).isLeaf = false →
        decode root (words.flatten ++ tail) = .ok out ∧
        decodeLoop root root [] (words.flatten ++ tail) = .ok (root.follow tail, out) := by
    intro words out tail hw htf htl
    have h := decodeLoop_words root hf hl tail htf htl words out hw []
    rw [List.nil_append] at h
    exact ⟨by simp [decode, h, Except.map], h⟩
  refine ⟨key, ?_⟩
  intro bits
  obtain ⟨words, out, tail, hsplit, hw, htf, htl⟩ :=
    split_words root hf hl bits [] (by rw [follow_nil]; exact hf) (by rw [follow_nil]; exact hl)
  rw [List.nil_append] at hsplit
  refine ⟨words, out, tail, hsplit, hw, htf, htl, ?_⟩
  rw [hsplit]
  exact (key words out tail hw htf htl).1

/-- Witness for C4 on the sample tree and the bits 0 1: the code word 0 of b followed by the
unfinished code word 1. -/
theorem decode_midpath_returns_output_witness :
    (decode sampleTree ([['0']].flatten ++ ['1']) = .ok ['b'] ∧
      decodeLoop sampleTree sampleTree [] ([['0']].flatten ++ ['1']) =
        .ok (sampleTree.follow ['1'], ['b'])) ∧
    ∃ (words : List (List Char)) (out : List Char) (tail : List Char),
      ['0', '1'] = words.flatten ++ tail ∧
      List.Forall₂ (fun w c => ∃ f, sampleTree.follow w = .node c f .null .null) words out ∧
      (sampleTree.follow tail).isFull = true ∧ (sampleTree.follow tail).isLeaf = false ∧
      decode sampleTree ['0', '1'] = .ok out :=
  ⟨(decode_midpath_returns_output sampleTree rfl rfl).1 [['0']] ['b'] ['1']
      (List.Forall₂.cons ⟨3, rfl⟩ List.Forall₂.nil) rfl rfl,
    (decode_midpath_returns_output sampleTree rfl rfl).2 ['0', '1']⟩

/-- Claim C5, evaluated on the empty input: the frequency map is empty, the heap stays empty,
and `buildHuffmanTree` calls `top()` on it; the pipeline stops there with undefined
behaviour and writes nothing. -/
theorem compress_empty_input_faults (hp : HeapAlgo) :
    countFreq [] = .ok [] ∧ buildHuffmanTree hp [] = .error .emptyTop ∧
      compress hp [] = .error .emptyTop ∧ mainRun hp [] = .error .emptyTop :=
  ⟨rfl, rfl, rfl, rfl⟩

/-- Claim C6: for every non-empty frequency table (distinct symbols, counts the program can
add up) `buildHuffmanTree` returns a tree whose leaves are exactly the symbols of the table,
and its weighted path length, the sum over the symbols of count times code length, is at
most that of every binary tree whose leaves are exactly the symbols of the table, whatever
the heap does among equal frequencies. -/
theorem buildHuffmanTree_optimal (hp : HeapAlgo) (freqMap : List (Char × Int))
    (hne : freqMap ≠ []) (hnd : (freqMap.map Prod.fst).Nodup) (hr : CountsInRange freqMap) :
    ∃ root, buildHuffmanTree hp freqMap = .ok root ∧
      root.leaves.Perm (freqMap.map Prod.fst) ∧
      ∀ t : NodePtr, t.leaves.Perm (freqMap.map Prod.fst) →
        weightedPathLength freqMap root ≤ weightedPathLength freqMap t := by
  obtain ⟨root, hroot, hrun⟩ := buildHuffmanTree_run hp freqMap hne hr
  obtain ⟨h1, h2⟩ := huffRun_optimal freqMap hnd hr root hrun
  exact ⟨root, hroot, h1, h2⟩

/-- Witness for C6 on the table a 2, b 3, c 2. -/
theorem buildHuffmanTree_optimal_witness :
    ∃ root, buildHuffmanTree sortingHeap [('a', 2), ('b', 3), ('c', 2)] = .ok root ∧
      root.leaves.Perm ([('a', 2), ('b', 3), ('c', 2)].map Prod.fst) ∧
      ∀ t : NodePtr, t.leaves.Perm ([('a', 2), ('b', 3), ('c', 2)].map Prod.fst) →
        weightedPathLength [('a', 2), ('b', 3), ('c', 2)] root ≤
          weightedPathLength [('a', 2), ('b', 3), ('c', 2)] t :=
  buildHuffmanTree_optimal sortingHeap [('a', 2), ('b', 3), ('c', 2)] (by decide) (by decide)
    (by decide)

/-- Claim C7 fails as stated: the 8-bit stream 01010101 is written as ten bytes, eight for the
header and two for the payload, while the claim gives 1 + ceil(8/8) = 2 bytes; the payload
alone has two bytes instead of one because a full byte of padding is added. -/
theorem packed_size_counterexample :
    saveBinaryFile ['0', '1', '0', '1', '0', '1', '0', '1'] =
        .ok [48, 48, 48, 48, 49, 48, 48, 48, 85, 0] ∧
      ([48, 48, 48, 48, 49, 48, 48, 48, 85, 0] : List Nat).length ≠
        1 + (['0', '1', '0', '1', '0', '1', '0', '1'].length + 7) / 8 ∧
      headerBytes (extraBitsOf ['0', '1', '0', '1', '0', '1', '0', '1']) =
        [48, 48, 48, 48, 49, 48, 48, 48] ∧
      ([85, 0] : List Nat).length ≠ (['0', '1', '0', '1', '0', '1', '0', '1'].length + 7) / 8 :=
  ⟨rfl, by decide, rfl, by decide⟩

/-- Claim C7 as amended: for every encoded bit stream of n bits, `saveBinaryFile` writes its
header followed by floor(n/8) + 1 payload bytes, which is ceil(n/8) unless n is a multiple
of 8 and one byte more when it is; the 11-bit encoding of "aabbbcc" gets 2 payload bytes.
The size of the header is left out of this statement. -/
theorem saveBinaryFile_payload_length (encodedText : List Char) (hs : IsBits encodedText) :
    ∃ payload, saveBinaryFile encodedText =
        .ok (headerBytes (extraBitsOf encodedText) ++ payload) ∧
      payload.length = encodedText.length / 8 + 1 ∧
      (encodedText.length % 8 ≠ 0 → payload.length = (encodedText.length + 7) / 8) ∧
      (encodedText.length % 8 = 0 → payload.length = (encodedText.length + 7) / 8 + 1) := by
  obtain ⟨payload, h1, h2⟩ := saveBinaryFile_payload encodedText hs
  refine ⟨payload, h1, h2, ?_, ?_⟩ <;> intro h <;> omega

/-- Witness for C7 on the 11-bit encoding of "aabbbcc". -/
theorem saveBinaryFile_payload_length_witness :
    IsBits ['1', '0', '1', '0', '0', '0', '0', '1', '1', '1', '1'] ∧
    ∃ payload, saveBinaryFile ['1', '0', '1', '0', '0', '0', '0', '1', '1', '1', '1'] =
        .ok (headerBytes (extraBitsOf ['1', '0', '1', '0', '0', '0', '0', '1', '1', '1', '1'])
          ++ payload) ∧
      payload.length = ['1', '0', '1', '0', '0', '0', '0', '1', '1', '1', '1'].length / 8 + 1 ∧
      (['1', '0', '1', '0', '0', '0', '0', '1', '1', '1', '1'].length % 8 ≠ 0 →
        payload.length = (['1', '0', '1', '0', '0', '0', '0', '1', '1', '1', '1'].length + 7) / 8) ∧
      (['1', '0', '1', '0', '0', '0', '0', '1', '1', '1', '1'].length % 8 = 0 →
        payload.length =
          (['1', '0', '1', '0', '0', '0', '0', '1', '1', '1', '1'].length + 7) / 8 + 1) :=
  ⟨by decide,
    saveBinaryFile_payload_length ['1', '0', '1', '0', '0', '0', '0', '1', '1', '1', '1']
      (by decide)⟩

/-- Claim C8, evaluated: for every encoded bit stream the header that `saveBinaryFile` writes
is the eight characters of the pad count in binary, not one byte; its first byte is the
character 0 (value 48), and 48 is what `readBinaryFile` takes as the pad count, while the
pad that was appended is at most 8.  For the stream 0 1 the pad is 6 and the file is the
header 00000110 followed by the byte 64. -/
theorem header_read_back_mismatch (encodedText : List Char) :
    (headerBytes (extraBitsOf encodedText)).length = 8 ∧
      extraBitsOf encodedText ≤ 8 ∧
      (∀ payload, ∃ rest,
        readHeader (headerBytes (extraBitsOf encodedText) ++ payload) = .ok (48, rest)) ∧
      saveBinaryFile ['0', '1'] = .ok [48, 48, 48, 48, 48, 49, 49, 48, 64] ∧
      extraBitsOf ['0', '1'] = 6 ∧
      readHeader [48, 48, 48, 48, 48, 49, 49, 48, 64] =
        .ok (48, [48, 48, 48, 48, 49, 49, 48, 64]) := by
  obtain ⟨rest, h1, h2⟩ := headerBytes_extraBits encodedText
  refine ⟨?_, ?_, ?_, rfl, rfl, rfl⟩
  · rw [h1]
    simp [h2]
  · unfold extraBitsOf
    omega
  · intro payload
    exact ⟨rest ++ payload, by rw [h1]; rfl⟩

/-- Claim C9 fails as stated: for the 8-bit stream 01010101 the pad count of
`saveBinaryFile` is 8, while (8 - (8 mod 8)) mod 8 is 0, and 8 is outside the range 0..7;
the payload written is the byte 85 followed by a whole byte of zero bits. -/
theorem pad_length_counterexample :
    extraBitsOf ['0', '1', '0', '1', '0', '1', '0', '1'] = 8 ∧
      extraBitsOf ['0', '1', '0', '1', '0', '1', '0', '1'] ≠
        (8 - ['0', '1', '0', '1', '0', '1', '0', '1'].length % 8) % 8 ∧
      ¬ extraBitsOf ['0', '1', '0', '1', '0', '1', '0', '1'] ≤ 7 ∧
      saveBinaryFile ['0', '1', '0', '1', '0', '1', '0', '1'] =
        .ok (headerBytes 8 ++ [85, 0]) ∧
      expandBytes [85, 0] =
        ['0', '1', '0', '1', '0', '1', '0', '1'] ++ List.replicate 8 '0' :=
  ⟨rfl, by decide, by decide, rfl, rfl⟩

/-- Claim C9 as amended: for every encoded bit stream of length n the number of zero bits
that `saveBinaryFile` appends is 8 - (n mod 8): the payload it writes expands to the stream
followed by that many zero bits.  The number always lies in the range 1..8, and it agrees
with (8 - (n mod 8)) mod 8 exactly when n is not a multiple of 8. -/
theorem pad_length_range (encodedText : List Char) (hs : IsBits encodedText) :
    (∃ payload, saveBinaryFile encodedText =
        .ok (headerBytes (extraBitsOf encodedText) ++ payload) ∧
      expandBytes payload =
        encodedText ++ List.replicate (8 - encodedText.length % 8) '0') ∧
      extraBitsOf encodedText = 8 - encodedText.length % 8 ∧
      1 ≤ 8 - encodedText.length % 8 ∧ 8 - encodedText.length % 8 ≤ 8 ∧
      (8 - encodedText.length % 8 = (8 - encodedText.length % 8) % 8 ↔
        encodedText.length % 8 ≠ 0) := by
  refine ⟨saveBinaryFile_expand encodedText hs, rfl, ?_, ?_, ?_⟩ <;> omega

/-- Witness for C9 on the 8-bit stream 01010101, where the pad is 8. -/
theorem pad_length_range_witness :
    IsBits ['0', '1', '0', '1', '0', '1', '0', '1'] ∧
    (∃ payload, saveBinaryFile ['0', '1', '0', '1', '0', '1', '0', '1'] =
        .ok (headerBytes (extraBitsOf ['0', '1', '0', '1', '0', '1', '0', '1']) ++ payload) ∧
      expandBytes payload = ['0', '1', '0', '1', '0', '1', '0', '1'] ++
        List.replicate (8 - ['0', '1', '0', '1', '0', '1', '0', '1'].length % 8) '0') ∧
      extraBitsOf ['0', '1', '0', '1', '0', '1', '0', '1'] =
        8 - ['0', '1', '0', '1', '0', '1', '0', '1'].length % 8 ∧
      1 ≤ 8 - ['0', '1', '0', '1', '0', '1', '0', '1'].length % 8 ∧
      8 - ['0', '1', '0', '1', '0', '1', '0', '1'].length % 8 ≤ 8 ∧
      (8 - ['0', '1', '0', '1', '0', '1', '0', '1'].length % 8 =
          (8 - ['0', '1', '0', '1', '0', '1', '0', '1'].length % 8) % 8 ↔
        ['0', '1', '0', '1', '0', '1', '0', '1'].length % 8 ≠ 0) :=
  ⟨by decide,
    pad_length_range ['0', '1', '0', '1', '0', '1', '0', '1'] (by decide)⟩

/-- Claim C10, evaluated: for every frequency table with exactly one entry, such as a : 4 for
the text "aaaa", `buildHuffmanTree` returns the single leaf of that entry and the code table
that `generateCodes` produces from it holds exactly one code, the empty string for that
symbol, where the claim asks for a non-empty code such as "0". -/
theorem lone_leaf_code_empty (hp : HeapAlgo) (c : Char) (f : Int) :
    buildHuffmanTree hp [(c, f)] = .ok (.node c f .null .null) ∧
      generateCodes (.node c f .null .null) [] emptyCodes c = some [] ∧
      (∀ k, k ≠ c → generateCodes (.node c f .null .null) [] emptyCodes k = none) ∧
      encode ['a', 'a', 'a', 'a'] (generateCodes (.node 'a' 4 .null .null) [] emptyCodes) = [] := by
  refine ⟨buildHuffmanTree_single hp c f, ?_, ?_, rfl⟩
  · simp [generateCodes, NodePtr.isNull, assignCode]
  · intro k hk
    simp [generateCodes, NodePtr.isNull, assignCode, emptyCodes, hk]

/-- Claim C11: for every non-empty frequency table (distinct symbols, counts the program can
add up) the tree that `buildHuffmanTree` returns is well-formed, that is, every node has
either no child or both children, and its leaves are the entries of the table: the pairs of
symbol and count at the leaves are a rearrangement of the table, so that every symbol of
the table labels exactly one leaf and that leaf carries the count of the symbol. -/
theorem tree_shape_invariant (hp : HeapAlgo) (freqMap : List (Char × Int))
    (hne : freqMap ≠ []) (hnd : (freqMap.map Prod.fst).Nodup) (hr : CountsInRange freqMap) :
    ∃ root, buildHuffmanTree hp freqMap = .ok root ∧ root.isFull = true ∧
      root.leafEntries.Perm freqMap ∧
      ∀ pair ∈ freqMap, root.leaves.count pair.1 = 1 ∧ pair ∈ root.leafEntries := by
  obtain ⟨root, hroot, hfull, hperm, _⟩ := buildHuffmanTree_shape hp freqMap hne hr
  refine ⟨root, hroot, hfull, hperm, ?_⟩
  intro pair hpair
  constructor
  · rw [leaves_eq_map_leafEntries, (hperm.map Prod.fst).count_eq]
    exact List.count_eq_one_of_mem hnd (List.mem_map_of_mem _ hpair)
  · exact hperm.symm.subset hpair

/-- Witness for C11 on the table a 2, b 3, c 2. -/
theorem tree_shape_invariant_witness :
    ∃ root, buildHuffmanTree sortingHeap [('a', 2), ('b', 3), ('c', 2)] = .ok root ∧
      root.isFull = true ∧ root.leafEntries.Perm [('a', 2), ('b', 3), ('c', 2)] ∧
      ∀ pair ∈ [('a', (2 : Int)), ('b', 3), ('c', 2)],
        root.leaves.count pair.1 = 1 ∧ pair ∈ root.leafEntries :=
  tree_shape_invariant sortingHeap [('a', 2), ('b', 3), ('c', 2)] (by decide) (by decide)
    (by decide)

/-- Claim C13: for every text of at most `INT_MAX` characters the counting loop of `main`
returns a frequency table that has exactly one entry for each distinct character of the text
(the keys are in ascending order, none twice, and a character is a key exactly when it
occurs), and every entry holds the number of occurrences of its character; the empty text
gives the empty table. -/
theorem countFreq_counts (text : List Char) (hlen : text.length ≤ 2147483647) :
    ∃ fm, countFreq text = .ok fm ∧
      (fm.map Prod.fst).Pairwise (· < ·) ∧ (fm.map Prod.fst).Nodup ∧
      (∀ c, c ∈ fm.map Prod.fst ↔ c ∈ text) ∧
      (∀ c n, (c, n) ∈ fm → n = (text.count c : Int)) ∧
      countFreq [] = .ok [] := by
  have hlen2 : (text.length : Int) ≤ INT_MAX := by
    have : (text.length : Int) ≤ 2147483647 := by exact_mod_cast hlen
    exact this
  obtain ⟨fm, h1, h2⟩ := countFreq_spec text hlen2
  have hnd : (fm.map Prod.fst).Nodup := h2.1.imp (fun hab => ne_of_lt hab)
  refine ⟨fm, h1, h2.1, hnd, h2.2.1, ?_, rfl⟩
  intro c n hmem
  rw [← freqIn_of_mem fm hnd c n hmem]
  exact h2.2.2 c

/-- Witness for C13 on the text "aabbbcc". -/
theorem countFreq_counts_witness :
    ∃ fm, countFreq ['a', 'a', 'b', 'b', 'b', 'c', 'c'] = .ok fm ∧
      (fm.map Prod.fst).Pairwise (· < ·) ∧ (fm.map Prod.fst).Nodup ∧
      (∀ c, c ∈ fm.map Prod.fst ↔ c ∈ ['a', 'a', 'b', 'b', 'b', 'c', 'c']) ∧
      (∀ c n, (c, n) ∈ fm → n = ((['a', 'a', 'b', 'b', 'b', 'c', 'c'].count c : Nat) : Int)) ∧
      countFreq [] = .ok [] :=
  countFreq_counts ['a', 'a', 'b', 'b', 'b', 'c', 'c'] (by decide)

/-- Claim C14: for the input "aabbbcc" the frequency table is a 2, b 3, c 2; whatever the
heap does with the tie between a and c, the code table gives b the one-bit code 0 and gives
a and c the two-bit codes 10 and 11, in one order or the other; `encode` produces exactly
11 bits, and `decode` with the same tree returns "aabbbcc" from them. -/
theorem scenario_aabbbcc (hp : HeapAlgo) :
    countFreq ['a', 'a', 'b', 'b', 'b', 'c', 'c'] = .ok [('a', 2), ('b', 3), ('c', 2)] ∧
    ∃ root, buildHuffmanTree hp [('a', 2), ('b', 3), ('c', 2)] = .ok root ∧
      generateCodes root [] emptyCodes 'b' = some ['0'] ∧
      ((generateCodes root [] emptyCodes 'a' = some ['1', '0'] ∧
          generateCodes root [] emptyCodes 'c' = some ['1', '1']) ∨
        (generateCodes root [] emptyCodes 'a' = some ['1', '1'] ∧
          generateCodes root [] emptyCodes 'c' = some ['1', '0'])) ∧
      (encode ['a', 'a', 'b', 'b', 'b', 'c', 'c']
        (generateCodes root [] emptyCodes)).length = 11 ∧
      decode root (encode ['a', 'a', 'b', 'b', 'b', 'c', 'c']
        (generateCodes root [] emptyCodes)) = .ok ['a', 'a', 'b', 'b', 'b', 'c', 'c'] := by
  refine ⟨rfl, ?_⟩
  rcases buildHuffmanTree_abc hp with h | h
  · exact ⟨sampleTree, h, rfl, Or.inl ⟨rfl, rfl⟩, rfl, rfl⟩
  · exact ⟨sampleTreeSwapped, h, rfl, Or.inr ⟨rfl, rfl⟩, rfl, rfl⟩

/-- Claim C15: for every text of at most `INT_MAX` characters that contains at least two
distinct symbols, with the tree that `buildHuffmanTree` builds from the frequencies of the
text and the codes that `generateCodes` reads off it, `decode(root, encode(text, codes))`
returns the text, whatever the heap does among equal frequencies. -/
theorem codec_roundtrip (hp : HeapAlgo) (text : List Char) (hlen : text.length ≤ 2147483647)
    (c1 c2 : Char) (h1 : c1 ∈ text) (h2 : c2 ∈ text) (hne : c1 ≠ c2) :
    codecRun hp text = .ok text ∧
      ∃ fm root, countFreq text = .ok fm ∧ buildHuffmanTree hp fm = .ok root ∧
        decode root (encode text (generateCodes root [] emptyCodes)) = .ok text := by
  have hlen2 : (text.length : Int) ≤ INT_MAX := by
    have : (text.length : Int) ≤ 2147483647 := by exact_mod_cast hlen
    exact this
  obtain ⟨fm, hfm, hcounts⟩ := countFreq_spec text hlen2
  have hrange := countsInRange_of_countsOf hcounts hlen2
  have hk1 : c1 ∈ fm.map Prod.fst := (hcounts.2.1 c1).mpr h1
  have hk2 : c2 ∈ fm.map Prod.fst := (hcounts.2.1 c2).mpr h2
  have hfmlen : 2 ≤ fm.length := by
    match fm, hk1, hk2 with
    | [], hk1, _ => simp at hk1
    | [p], hk1, hk2 =>
      simp only [List.map_cons, List.map_nil, List.mem_singleton] at hk1 hk2
      exact absurd (hk1.trans hk2.symm) hne
    | _ :: _ :: _, _, _ => simp
  have hfmne : fm ≠ [] := by
    intro h
    subst h
    simp at hfmlen
  obtain ⟨root, hroot, hfull, hperm, _⟩ := buildHuffmanTree_shape hp fm hfmne hrange
  have hnl : root.isLeaf = false :=
    not_isLeaf_of_two_entries (by rw [hperm.length_eq]; exact hfmlen)
  have hlv : ∀ c ∈ text, c ∈ root.leaves := by
    intro c hc
    rw [leaves_eq_map_leafEntries]
    exact (hperm.map Prod.fst).symm.subset ((hcounts.2.1 c).mpr hc)
  have hdec : decode root (encode text (generateCodes root [] emptyCodes)) = .ok text := by
    rw [decode, encode_eq_flatMap, decodeLoop_encode root hfull hnl text hlv []]
    rfl
  refine ⟨?_, fm, root, hfm, hroot, hdec⟩
  simp only [codecRun, hfm, hroot, bind, Except.bind]
  exact hdec

/-- Witness for C15 on the text "aabbbcc". -/
theorem codec_roundtrip_witness :
    codecRun sortingHeap ['a', 'a', 'b', 'b', 'b', 'c', 'c'] =
        .ok ['a', 'a', 'b', 'b', 'b', 'c', 'c'] ∧
      ∃ fm root, countFreq ['a', 'a', 'b', 'b', 'b', 'c', 'c'] = .ok fm ∧
        buildHuffmanTree sortingHeap fm = .ok root ∧
        decode root (encode ['a', 'a', 'b', 'b', 'b', 'c', 'c']
          (generateCodes root [] emptyCodes)) = .ok ['a', 'a', 'b', 'b', 'b', 'c', 'c'] :=
  codec_roundtrip sortingHeap ['a', 'a', 'b', 'b', 'b', 'c', 'c'] (by decide) 'a' 'b'
    (by decide) (by decide) (by decide)

/-- Claim C16: for every encoded bit stream of length n, `saveBinaryFile` appends
8 - (n mod 8) zero bits: its payload expands to the stream followed by that many zeros.
The pad count lies in 1..8 and is 8, not 0, exactly when n is a multiple of 8; the padded
stream has a length that is a positive multiple of 8, eight bits for each payload byte. -/
theorem padding_quirk (encodedText : List Char) (hs : IsBits encodedText) :
    ∃ payload, saveBinaryFile encodedText =
        .ok (headerBytes (extraBitsOf encodedText) ++ payload) ∧
      expandBytes payload = encodedText ++ List.replicate (extraBitsOf encodedText) '0' ∧
      extraBitsOf encodedText = 8 - encodedText.length % 8 ∧
      1 ≤ extraBitsOf encodedText ∧ extraBitsOf encodedText ≤ 8 ∧
      (extraBitsOf encodedText = 8 ↔ encodedText.length % 8 = 0) ∧
      0 < (encodedText ++ List.replicate (extraBitsOf encodedText) '0').length ∧
      (encodedText ++ List.replicate (extraBitsOf encodedText) '0').length % 8 = 0 ∧
      (encodedText ++ List.replicate (extraBitsOf encodedText) '0').length =
        8 * payload.length := by
  obtain ⟨payload, h1, h2⟩ := saveBinaryFile_expand encodedText hs
  have h3 : extraBitsOf encodedText = 8 - encodedText.length % 8 := rfl
  refine ⟨payload, h1, by rw [h3]; exact h2, h3, ?_, ?_, ?_, ?_, ?_, ?_⟩
  · omega
  · omega
  · omega
  · simp only [List.length_append, List.length_replicate]
    omega
  · simp only [List.length_append, List.length_replicate]
    omega
  · rw [h3, ← h2, expandBytes_length]

/-- Witness for C16 on the 8-bit stream 01010101, where the pad is 8. -/
theorem padding_quirk_witness :
    ∃ payload, saveBinaryFile ['0', '1', '0', '1', '0', '1', '0', '1'] =
        .ok (headerBytes (extraBitsOf ['0', '1', '0', '1', '0', '1', '0', '1']) ++ payload) ∧
      expandBytes payload = ['0', '1', '0', '1', '0', '1', '0', '1'] ++
        List.replicate (extraBitsOf ['0', '1', '0', '1', '0', '1', '0', '1']) '0' ∧
      extraBitsOf ['0', '1', '0', '1', '0', '1', '0', '1'] =
        8 - ['0', '1', '0', '1', '0', '1', '0', '1'].length % 8 ∧
      1 ≤ extraBitsOf ['0', '1', '0', '1', '0', '1', '0', '1'] ∧
      extraBitsOf ['0', '1', '0', '1', '0', '1', '0', '1'] ≤ 8 ∧
      (extraBitsOf ['0', '1', '0', '1', '0', '1', '0', '1'] = 8 ↔
        ['0', '1', '0', '1', '0', '1', '0', '1'].length % 8 = 0) ∧
      0 < (['0', '1', '0', '1', '0', '1', '0', '1'] ++
        List.replicate (extraBitsOf ['0', '1', '0', '1', '0', '1', '0', '1']) '0').length ∧
      (['0', '1', '0', '1', '0', '1', '0', '1'] ++
        List.replicate (extraBitsOf ['0', '1', '0', '1', '0', '1', '0', '1']) '0').length % 8
          = 0 ∧
      (['0', '1', '0', '1', '0', '1', '0', '1'] ++
        List.replicate (extraBitsOf ['0', '1', '0', '1', '0', '1', '0', '1']) '0').length =
          8 * payload.length :=
  padding_quirk ['0', '1', '0', '1', '0', '1', '0', '1'] (by decide)

/-- Claim C17: for every frequency table with at least two entries (counts the program can
add up) and every sequence of bits, valid encoding or not, `decode` on the tree that
`buildHuffmanTree` returns never follows a missing child: the loop runs through all the bits
and returns a text, whatever the heap does among equal frequencies. -/
theorem decode_never_null_child (hp : HeapAlgo) (freqMap : List (Char × Int))
    (h2 : 2 ≤ freqMap.length) (hr : CountsInRange freqMap) (bits : List Char) :
    ∃ root, buildHuffmanTree hp freqMap = .ok root ∧
      ∃ cur out, decodeLoop root root [] bits = .ok (cur, out) ∧
        decode root bits = .ok out ∧ decode root bits ≠ .error .nullDeref := by
  have hne : freqMap ≠ [] := by
    intro h
    subst h
    simp at h2
  obtain ⟨root, hroot, hfull, hperm, _⟩ := buildHuffmanTree_shape hp freqMap hne hr
  have hnl : root.isLeaf = false :=
    not_isLeaf_of_two_entries (by rw [hperm.length_eq]; exact h2)
  obtain ⟨cur, out, h, _, _⟩ := decodeLoop_total root hfull hnl bits root [] hfull hnl
  have hd : decode root bits = .ok out := by simp [decode, h, Except.map]
  refine ⟨root, hroot, cur, out, h, hd, ?_⟩
  rw [hd]
  intro hcon
  cases hcon

/-- Witness for C17 on the table a 2, b 3, c 2 and the bits 0 1 1 1 0 1. -/
theorem decode_never_null_child_witness :
    ∃ root, buildHuffmanTree sortingHeap [('a', 2), ('b', 3), ('c', 2)] = .ok root ∧
      ∃ cur out, decodeLoop root root [] ['0', '1', '1', '1', '0', '1'] = .ok (cur, out) ∧
        decode root ['0', '1', '1', '1', '0', '1'] = .ok out ∧
        decode root ['0', '1', '1', '1', '0', '1'] ≠ .error .nullDeref :=
  decode_never_null_child sortingHeap [('a', 2), ('b', 3), ('c', 2)] (by decide) (by decide)
    ['0', '1', '1', '1', '0', '1']

/-- Claim C18: for every padded bit stream, a string of binary digits whose length is a
multiple of 8, the loop of `saveBinaryFile` writes one byte for each block of eight digits,
each byte has the value of its eight digits read most significant bit first, and expanding
the bytes most significant bit first, as `readBinaryFile` does, gives the padded stream
back. -/
theorem msb_first_packing (paddedText : List Char) (hs : IsBits paddedText)
    (h8 : paddedText.length % 8 = 0) :
    ∃ payload, packLoop paddedText = .ok payload ∧
      payload.length = paddedText.length / 8 ∧
      (∀ i, i < payload.length → payload.getD i 0 = msbByte paddedText i) ∧
      expandBytes payload = paddedText := by
  obtain ⟨payload, h1, h2, h3⟩ := packLoop_values paddedText hs h8
  obtain ⟨payload2, h4, h5⟩ := packLoop_expand paddedText hs h8
  have : payload2 = payload := by
    rw [h1] at h4
    exact (Except.ok.inj h4).symm
  subst this
  exact ⟨payload2, h1, h2, h3, h5⟩

/-- Witness for C18 on the padded stream 10100001 11100000 of the text "aabbbcc". -/
theorem msb_first_packing_witness :
    ∃ payload, packLoop ['1', '0', '1', '0', '0', '0', '0', '1',
        '1', '1', '1', '0', '0', '0', '0', '0'] = .ok payload ∧
      payload.length = ['1', '0', '1', '0', '0', '0', '0', '1',
        '1', '1', '1', '0', '0', '0', '0', '0'].length / 8 ∧
      (∀ i, i < payload.length → payload.getD i 0 = msbByte ['1', '0', '1', '0', '0', '0', '0', '1',
        '1', '1', '1', '0', '0', '0', '0', '0'] i) ∧
      expandBytes payload = ['1', '0', '1', '0', '0', '0', '0', '1',
        '1', '1', '1', '0', '0', '0', '0', '0'] :=
  msb_first_packing ['1', '0', '1', '0', '0', '0', '0', '1',
    '1', '1', '1', '0', '0', '0', '0', '0'] (by decide) (by decide)

/-- Claim C19: for every frequency table with k ≥ 1 entries (counts the program can add up)
the merge loop of `buildHuffmanTree` starts on a heap of k trees and ends after exactly
k - 1 iterations: k - 1 iterations are enough to reach a single tree and any smaller number
is not; every iteration on a heap of at least two trees leaves a heap with one tree less.
The tree returned has k leaves and k - 1 inner nodes. -/
theorem mergeLoop_terminates (hp : HeapAlgo) (freqMap : List (Char × Int))
    (hne : freqMap ≠ []) (hr : CountsInRange freqMap) :
    ∃ root, (pushLeaves hp freqMap).length = freqMap.length ∧
      mergeLoop hp (freqMap.length - 1) (pushLeaves hp freqMap) = .ok [root] ∧
      (∀ fuel, fuel + 1 < freqMap.length →
        mergeLoop hp fuel (pushLeaves hp freqMap) = .error .outOfFuel) ∧
      (∀ v, IsHeap v → InRange v → 1 < v.length →
        ∃ v1, mergeBody hp v = .ok v1 ∧ v1.length + 1 = v.length) ∧
      buildHuffmanTree hp freqMap = .ok root ∧
      root.leaves.length = freqMap.length ∧ root.internalCount = freqMap.length - 1 := by
  obtain ⟨hperm, hheap⟩ := pushLeaves_spec hp freqMap
  have hrange : InRange (pushLeaves hp freqMap) := (inRange_leaves freqMap hr).perm hperm
  have hlen : (pushLeaves hp freqMap).length = freqMap.length := by
    rw [hperm.length_eq, List.length_map]
  have hpos : 0 < freqMap.length := List.length_pos.mpr hne
  obtain ⟨r, hrun⟩ := mergeLoop_exact hp (freqMap.length - 1) _ hheap hrange (by omega)
  obtain ⟨root, hroot, _, hentries, hcount⟩ := buildHuffmanTree_shape hp freqMap hne hr
  have hbuild : buildHuffmanTree hp freqMap = .ok r := by
    have hmono := mergeLoop_fuel_mono hp (freqMap.length - 1) _ _ hrun
    have hk : freqMap.length - 1 + 1 = (pushLeaves hp freqMap).length := by omega
    rw [hk] at hmono
    simp only [buildHuffmanTree, hmono, bind, Except.bind, pqTop]
  have hrr : root = r := by
    rw [hroot] at hbuild
    exact Except.ok.inj hbuild
  subst hrr
  refine ⟨root, hlen, hrun, ?_, ?_, hroot, ?_, by omega⟩
  · intro fuel hfuel
    exact mergeLoop_short hp fuel _ hheap hrange (by omega)
  · intro v hv hvr hvl
    obtain ⟨v1, h1, _, _, h4⟩ := mergeBody_spec hp v hv hvr hvl
    exact ⟨v1, h1, h4⟩
  · rw [leaves_eq_map_leafEntries, List.length_map, hentries.length_eq]

/-- Witness for C19 on the table a 2, b 3, c 2. -/
theorem mergeLoop_terminates_witness :
    ∃ root, (pushLeaves sortingHeap [('a', 2), ('b', 3), ('c', 2)]).length =
        [('a', (2 : Int)), ('b', 3), ('c', 2)].length ∧
      mergeLoop sortingHeap ([('a', (2 : Int)), ('b', 3), ('c', 2)].length - 1)
        (pushLeaves sortingHeap [('a', 2), ('b', 3), ('c', 2)]) = .ok [root] ∧
      (∀ fuel, fuel + 1 < [('a', (2 : Int)), ('b', 3), ('c', 2)].length →
        mergeLoop sortingHeap fuel (pushLeaves sortingHeap [('a', 2), ('b', 3), ('c', 2)]) =
          .error .outOfFuel) ∧
      (∀ v, IsHeap v → InRange v → 1 < v.length →
        ∃ v1, mergeBody sortingHeap v = .ok v1 ∧ v1.length + 1 = v.length) ∧
      buildHuffmanTree sortingHeap [('a', 2), ('b', 3), ('c', 2)] = .ok root ∧
      root.leaves.length = [('a', (2 : Int)), ('b', 3), ('c', 2)].length ∧
      root.internalCount = [('a', (2 : Int)), ('b', 3), ('c', 2)].length - 1 :=
  mergeLoop_terminates sortingHeap [('a', 2), ('b', 3), ('c', 2)] (by decide) (by decide)

end Zipper
